import Mathlib

/-!
A shallow embedding of the BWT + MTF + RLE compression pipeline of
`src/encoder.py` and `src/decoder.py`, together with proofs about the
specification's testable properties.

Byte buffers are modelled as `List Nat` whose elements are byte values
(`< 256` where a property needs it); Python's arbitrary-precision integers
are `Nat`, or `Int` where the source can see negative values.  Fallible
functions return `Except CodecError`.
-/

namespace EncDec

/-- The two error conditions of the decoder (spec §7): the `ValueError`
raised for a bad BWT index or an out-of-range MTF rank is `InvalidIndex`;
the `ValueError` raised when the run-coded stream ends mid-record is
`TruncatedData`. -/
inductive CodecError where
  | InvalidIndex
  | TruncatedData
deriving DecidableEq

/-! ## Block-sort transform, forward (src/encoder.py, `perform_burrows_wheeler_transform`) -/

/-- The rotation comparator loop of `compare_rotations` (src/encoder.py
lines 32–46): with `rem` positions left to inspect starting at offset `i`,
return the first non-zero byte difference `data[(a+i) % n] - data[(b+i) % n]`,
or `0` when every inspected position agrees.  `compareRotations` runs it for
all `n` positions.  Indices `(a+i) % n` are always `< n = d.length`, so the
`getD` default is never consulted. -/
def cmpGo (d : List Nat) (n a b : Nat) : Nat → Nat → Int
  | i, rem + 1 =>
    if (d.getD ((a + i) % n) 0 : Int) - (d.getD ((b + i) % n) 0 : Int) ≠ 0 then
      (d.getD ((a + i) % n) 0 : Int) - (d.getD ((b + i) % n) 0 : Int)
    else
      cmpGo d n a b (i + 1) rem
  | _, 0 => 0

/-- `compare_rotations(a, b)` of src/encoder.py lines 32–46. -/
def compareRotations (d : List Nat) (a b : Nat) : Int :=
  cmpGo d d.length a b 0 d.length

/-- The sorted rotation indices: `indices.sort(key=cmp_to_key(compare_rotations))`
(src/encoder.py line 50).  Python's `list.sort` is a stable sort and
`cmp_to_key` orders by the sign of the comparator; since the comparator is a
consistent total preorder (lexicographic comparison of cyclic rotations), every
stable sort produces the same list, and `List.insertionSort` is stable (each
element is inserted in front of the first later-coming element it is `≤` to),
so this is extensionally the list computed by the source. -/
def sortedIndices (d : List Nat) : List Nat :=
  List.insertionSort (fun a b => compareRotations d a b ≤ 0) (List.range d.length)

/-- `perform_burrows_wheeler_transform` (src/encoder.py lines 10–63): empty
input maps to `([], 0)`; otherwise output byte at sorted position `p` is
`data[idx-1]` for `idx > 0` and `data[n-1]` for `idx = 0`, and the returned
index is the sorted position holding rotation `0` (the source records the
position during the output loop; rotation `0` occurs exactly once, so this is
`indexOf`). -/
def perform_burrows_wheeler_transform (d : List Nat) : List Nat × Nat :=
  if d = [] then ([], 0)
  else
    ((sortedIndices d).map
      (fun idx => if 0 < idx then d.getD (idx - 1) 0 else d.getD (d.length - 1) 0),
     (sortedIndices d).indexOf 0)

/-! ## Block-sort transform, inverse (src/decoder.py, `reverse_burrows_wheeler_transform`) -/

/-- The `cumulative_counts` table of src/decoder.py lines 39–44: the dict maps
each byte value present in `t` to the total count of all strictly smaller
present values, i.e. the number of elements of `t` strictly below `v` (the
source only ever queries values that are present in `t`). -/
def cumulativeCount (t : List Nat) (v : Nat) : Nat :=
  (t.filter (fun b => b < v)).length

/-- The `transformation_vector` of src/decoder.py lines 46–52: position `j`
holds `cumulative_counts[t[j]] + rank`, where `rank` is the running count of
earlier occurrences of `t[j]`. -/
def transformationVector (t : List Nat) : List Nat :=
  (List.range t.length).map
    (fun j => cumulativeCount t (t.getD j 0) + (t.take j).count (t.getD j 0))

/-- The reconstruction loop of src/decoder.py lines 55–59: `result[i] =
t[current_pos]; current_pos = vec[current_pos]` for `i` from `n-1` down to
`0`; `rebuild t vec current_pos k` is the list `result[n-k .. n-1]`. -/
def rebuild (t vec : List Nat) : Nat → Nat → List Nat
  | current_pos, k + 1 =>
    rebuild t vec (vec.getD current_pos 0) k ++ [t.getD current_pos 0]
  | _, 0 => []

/-- `reverse_burrows_wheeler_transform` (src/decoder.py lines 10–62).  Note
the source returns `b''` for empty input before validating the index. -/
def reverse_burrows_wheeler_transform (t : List Nat) (original_index : Int) :
    Except CodecError (List Nat) :=
  if t = [] then .ok []
  else if original_index < 0 ∨ (t.length : Int) ≤ original_index then .error .InvalidIndex
  else .ok (rebuild t (transformationVector t) original_index.toNat t.length)

/-! ## Recency-rank transform (move-to-front), both directions -/

/-- The loop of `perform_move_to_front_transform` (src/encoder.py lines
81–86): emit the alphabet position of each byte, then delete it there and
reinsert it at the front.  Every input byte is `< 256` (Python `bytes`), so it
is present in the alphabet and `indexOf` agrees with Python's `list.index`. -/
def mtfGo (alphabet : List Nat) : List Nat → List Nat
  | [] => []
  | byte :: rest =>
    (alphabet.indexOf byte) ::
      mtfGo (byte :: alphabet.eraseIdx (alphabet.indexOf byte)) rest

/-- `perform_move_to_front_transform` (src/encoder.py lines 66–89). -/
def perform_move_to_front_transform (d : List Nat) : List Nat :=
  mtfGo (List.range 256) d

/-- The loop of `reverse_move_to_front_transform` (src/decoder.py lines
93–105): the in-loop guard `idx >= len(alphabet)` raises `ValueError`
(alphabet length is in fact invariantly 256); the emitted byte is
`alphabet[idx]`, and for `idx ≠ 0` that entry is popped and reinserted at the
front. -/
def rmtfGo (alphabet : List Nat) : List Nat → Except CodecError (List Nat)
  | [] => .ok []
  | idx :: rest =>
    if alphabet.length ≤ idx then .error .InvalidIndex
    else
      match rmtfGo (if idx ≠ 0 then alphabet.getD idx 0 :: alphabet.eraseIdx idx else alphabet) rest with
      | .error e => .error e
      | .ok r => .ok (alphabet.getD idx 0 :: r)

/-- `reverse_move_to_front_transform` (src/decoder.py lines 65–108): empty
input short-circuits to `b''`; then the whole index list is scanned for
values outside `[0, 255]` (negative values cannot arise for `Nat` inputs,
which is faithful since the indices come from decoded bytes). -/
def reverse_move_to_front_transform (encoded_indices : List Nat) :
    Except CodecError (List Nat) :=
  if encoded_indices = [] then .ok []
  else if encoded_indices.any (fun idx => 256 ≤ idx) then .error .InvalidIndex
  else rmtfGo (List.range 256) encoded_indices

/-! ## Run codec, encode (src/encoder.py, `perform_run_length_encoding`) -/

/-- The run-measuring loop of src/encoder.py lines 118–120: starting from
`count`, the number of further increments of `count` while
`i + count < n ∧ data[i + count] = current ∧ count < 127`.  The final value
of the source's `count` variable is `count + countRunAux d n i current count`. -/
def countRunAux (d : List Nat) (n i current : Nat) (count : Nat) : Nat :=
  if h : i + count < n ∧ d.getD (i + count) 0 = current ∧ count < 127 then
    countRunAux d n i current (count + 1) + 1
  else 0
termination_by 127 - count
decreasing_by omega

/-- The raw-segment loop of src/encoder.py lines 129–136: starting at
`run_length = rl`, accumulate `data[i + rl]` while `i + rl < n ∧ rl < 127`,
stopping early as soon as the next three values form a run. -/
def rawRunGo (d : List Nat) (n i : Nat) (rl : Nat) : List Nat :=
  if h : i + rl < n ∧ rl < 127 then
    if i + rl + 2 < n ∧ d.getD (i + rl) 0 = d.getD (i + rl + 1) 0 ∧
        d.getD (i + rl + 1) 0 = d.getD (i + rl + 2) 0 then []
    else d.getD (i + rl) 0 :: rawRunGo d n i (rl + 1)
  else []
termination_by 127 - rl
decreasing_by omega

/-- The outer `while i < n` loop of src/encoder.py lines 116–141: a run of
length `> 2` becomes a repeat record `0x80 | count` followed by the value;
otherwise a raw record: a header byte equal to the literal count (whose top
bit is clear, the count being at most 127) followed by the literals. -/
def rleGo (d : List Nat) (n i : Nat) : List Nat :=
  if h : i < n then
    if hc : 2 < 1 + countRunAux d n i (d.getD i 0) 1 then
      (128 ||| (1 + countRunAux d n i (d.getD i 0) 1)) :: d.getD i 0 ::
        rleGo d n (i + (1 + countRunAux d n i (d.getD i 0) 1))
    else
      (rawRunGo d n i 0).length ::
        (rawRunGo d n i 0 ++ rleGo d n (i + (rawRunGo d n i 0).length))
  else []
termination_by n - i
decreasing_by
  · omega
  · have hne : rawRunGo d n i 0 ≠ [] := by
      rw [rawRunGo]
      rw [dif_pos (by omega : i + 0 < n ∧ 0 < 127)]
      by_cases hbrk : i + 0 + 2 < n ∧ d.getD (i + 0) 0 = d.getD (i + 0 + 1) 0 ∧
          d.getD (i + 0 + 1) 0 = d.getD (i + 0 + 2) 0
      · exfalso
        obtain ⟨h2, e1, e2⟩ := hbrk
        have s1 : countRunAux d n i (d.getD i 0) 1 =
            countRunAux d n i (d.getD i 0) 2 + 1 := by
          rw [countRunAux]
          rw [dif_pos]
          refine ⟨by omega, ?_, by omega⟩
          have : d.getD (i + 0) 0 = d.getD (i + 0 + 1) 0 := e1
          simpa using this.symm
        have s2 : countRunAux d n i (d.getD i 0) 2 =
            countRunAux d n i (d.getD i 0) 3 + 1 := by
          rw [countRunAux]
          rw [dif_pos]
          refine ⟨by omega, ?_, by omega⟩
          have e12 : d.getD (i + 2) 0 = d.getD i 0 := by
            have h1 : d.getD (i + 0) 0 = d.getD (i + 0 + 1) 0 := e1
            have h2' : d.getD (i + 0 + 1) 0 = d.getD (i + 0 + 2) 0 := e2
            simp only [Nat.add_zero, Nat.zero_add] at h1 h2'
            omega
          simpa using e12
        omega
      · rw [if_neg hbrk]
        simp
    have : 0 < (rawRunGo d n i 0).length := List.length_pos.mpr hne
    omega

/-- `perform_run_length_encoding` (src/encoder.py lines 92–144). -/
def perform_run_length_encoding (data : List Nat) : List Nat :=
  if data = [] then [] else rleGo data data.length 0

/-! ## Run codec, decode (src/decoder.py, `decode_run_length_encoding`) -/

/-- The `while position < data_length` loop of src/decoder.py lines 133–159.
A header with the top bit set demands one value byte (`TruncatedData` when the
stream ends first) and contributes `header & 0x7F` copies of it; a header with
the top bit clear demands `header` literal bytes (`TruncatedData` when fewer
remain) contributed verbatim. -/
def rleDecodeGo (c : List Nat) (n pos : Nat) : Except CodecError (List Nat) :=
  if h : pos < n then
    if (c.getD pos 0) &&& 128 ≠ 0 then
      if n ≤ pos + 1 then .error .TruncatedData
      else
        match rleDecodeGo c n (pos + 2) with
        | .error e => .error e
        | .ok rest =>
          .ok (List.replicate ((c.getD pos 0) &&& 127) (c.getD (pos + 1) 0) ++ rest)
    else
      if n < pos + 1 + c.getD pos 0 then .error .TruncatedData
      else
        match rleDecodeGo c n (pos + 1 + c.getD pos 0) with
        | .error e => .error e
        | .ok rest => .ok (((c.drop (pos + 1)).take (c.getD pos 0)) ++ rest)
  else .ok []
termination_by n - pos
decreasing_by
  · omega
  · omega

/-- `decode_run_length_encoding` (src/decoder.py lines 111–162). -/
def decode_run_length_encoding (compressed_data : List Nat) :
    Except CodecError (List Nat) :=
  if compressed_data = [] then .ok []
  else rleDecodeGo compressed_data compressed_data.length 0

/-! ## Container framer (the pure cores of `compress_file` and `decompress_file`) -/

/-- Big-endian `value.to_bytes (width, 'big')` (src/encoder.py line 204). -/
def toBytesBE : Nat → Nat → List Nat
  | 0, _ => []
  | width + 1, value => toBytesBE width (value / 256) ++ [value % 256]

/-- Big-endian `int.from_bytes(header, 'big')` (src/decoder.py line 197). -/
def fromBytesBE (l : List Nat) : Nat :=
  l.foldl (fun acc b => acc * 256 + b) 0

/-- The pure core of `compress_file` (src/encoder.py lines 159–206) with the
file I/O stripped: inputs shorter than 512 bytes are stored behind four zero
header bytes; otherwise the BWT→MTF→RLE payload is emitted behind the 4-byte
big-endian primary index, falling back to store mode when
`len(payload) + 4 >= len(data)`. -/
def encode (data : List Nat) : List Nat :=
  if data.length < 512 then [0, 0, 0, 0] ++ data
  else
    if data.length ≤
        (perform_run_length_encoding
          (perform_move_to_front_transform
            (perform_burrows_wheeler_transform data).1)).length + 4 then
      [0, 0, 0, 0] ++ data
    else
      toBytesBE 4 (perform_burrows_wheeler_transform data).2 ++
        perform_run_length_encoding
          (perform_move_to_front_transform
            (perform_burrows_wheeler_transform data).1)

/-- The pure core of `decompress_file` (src/decoder.py lines 178–217): a
4-zero-byte header means the rest is the output verbatim; any other header is
the big-endian primary index and the rest is run through RLE⁻¹ → MTF⁻¹ →
BWT⁻¹. -/
def decode (data : List Nat) : Except CodecError (List Nat) :=
  if data.take 4 = [0, 0, 0, 0] then .ok (data.drop 4)
  else
    match decode_run_length_encoding (data.drop 4) with
    | .error e => .error e
    | .ok mtf_indices =>
      match reverse_move_to_front_transform mtf_indices with
      | .error e => .error e
      | .ok bwt_data =>
        reverse_burrows_wheeler_transform bwt_data (fromBytesBE (data.take 4) : Int)

/-! ## Fuel-indexed structural twins

The three run-length-encoder loops above recurse by well-founded recursion,
which the kernel cannot evaluate directly; these structurally recursive twins
compute the same values once given enough fuel (proved below), and are used
to evaluate the encoder on concrete buffers. -/

/-- Structural twin of `countRunAux`. -/
def countRunF (d : List Nat) (n i current : Nat) : Nat → Nat → Nat
  | count, fuel + 1 =>
    if i + count < n ∧ d.getD (i + count) 0 = current ∧ count < 127 then
      countRunF d n i current (count + 1) fuel + 1
    else 0
  | _, 0 => 0

/-- Structural twin of `rawRunGo`. -/
def rawRunF (d : List Nat) (n i : Nat) : Nat → Nat → List Nat
  | rl, fuel + 1 =>
    if i + rl < n ∧ rl < 127 then
      if i + rl + 2 < n ∧ d.getD (i + rl) 0 = d.getD (i + rl + 1) 0 ∧
          d.getD (i + rl + 1) 0 = d.getD (i + rl + 2) 0 then []
      else d.getD (i + rl) 0 :: rawRunF d n i (rl + 1) fuel
    else []
  | _, 0 => []

/-- Structural twin of `rleGo`. -/
def rleGoF (d : List Nat) (n : Nat) : Nat → Nat → List Nat
  | i, fuel + 1 =>
    if i < n then
      if 2 < 1 + countRunF d n i (d.getD i 0) 1 128 then
        (128 ||| (1 + countRunF d n i (d.getD i 0) 1 128)) :: d.getD i 0 ::
          rleGoF d n (i + (1 + countRunF d n i (d.getD i 0) 1 128)) fuel
      else
        (rawRunF d n i 0 128).length ::
          (rawRunF d n i 0 128 ++ rleGoF d n (i + (rawRunF d n i 0 128).length) fuel)
    else []
  | _, 0 => []

/-! ## Specification-side definitions

These definitions follow the wording of the specification (sections 4.2 and
4.6), not the source; they exist to be compared with the source-derived
definitions above. -/

/-- Well-formedness of a run-coded stream, following the wording of spec §4.6
and claim C6: the stream is malformed exactly when a header byte with the top
bit set is the last byte of the stream, or a header byte with the top bit
clear declares more literal bytes than remain. -/
def rleWF : List Nat → Bool
  | [] => true
  | header :: rest =>
    if header &&& 128 ≠ 0 then
      match rest with
      | [] => false
      | _ :: rest2 => rleWF rest2
    else
      decide (header ≤ rest.length) && rleWF (rest.drop header)
termination_by l => l.length
decreasing_by
  · simp only [List.length_cons, List.length_drop]
    omega
  · simp only [List.length_cons, List.length_drop]
    omega

/-- Record-by-record run-codec decoding, following the wording of spec §4.6:
top bit set means `header & 0x7F` copies of the single following value byte
(`TruncatedData` when the stream ends first); top bit clear means `header`
literal bytes appended verbatim (`TruncatedData` when fewer remain). -/
def rcDecodeSpec : List Nat → Except CodecError (List Nat)
  | [] => .ok []
  | header :: rest =>
    if header &&& 128 ≠ 0 then
      match rest with
      | [] => .error .TruncatedData
      | value :: rest2 =>
        match rcDecodeSpec rest2 with
        | .error e => .error e
        | .ok out => .ok (List.replicate (header &&& 127) value ++ out)
    else
      if rest.length < header then .error .TruncatedData
      else
        match rcDecodeSpec (rest.drop header) with
        | .error e => .error e
        | .ok out => .ok (rest.take header ++ out)
termination_by l => l.length
decreasing_by
  · simp only [List.length_cons, List.length_drop]
    omega
  · simp only [List.length_cons, List.length_drop]
    omega

/-! ## Proof-side definitions for the block-sort transform -/

/-- Cyclic predecessor of an offset `j` modulo the buffer length `n`:
`predIdx n j` is the position of the byte written to the BWT output for the
rotation starting at `j`. -/
def predIdx (n j : Nat) : Nat := (j + n - 1) % n

/-- Big-endian numeric value of the `rem` cyclic bytes of `d` starting at
offset `s` (indices reduced modulo `n`).  For byte-valued buffers this
represents the rotation fragment faithfully, so comparing values is comparing
fragments lexicographically. -/
def chunkVal (d : List Nat) (n : Nat) : Nat → Nat → Nat
  | s, rem + 1 => d.getD (s % n) 0 * 256 ^ rem + chunkVal d n (s + 1) rem
  | _, 0 => 0

/-- Numeric value of the full rotation of `d` starting at offset `a`. -/
def rotVal (d : List Nat) (a : Nat) : Nat := chunkVal d d.length a d.length

/-- The strict-total tie-broken rotation order of claim C9: rotation `a`
comes before rotation `b` when the comparator says so, and equal rotations
are ordered by ascending original rotation index. -/
def tieLe (d : List Nat) (a b : Nat) : Prop :=
  compareRotations d a b < 0 ∨ (compareRotations d a b = 0 ∧ a ≤ b)

/-- The ascending list of positions of `t` holding the value `v`. -/
def occL (t : List Nat) (v : Nat) : List Nat :=
  (List.range t.length).filter (fun q => t.getD q 0 = v)

/-- The BWT output column as a standalone list: the first component of
`perform_burrows_wheeler_transform` on non-empty input. -/
def bwtL (d : List Nat) : List Nat :=
  (sortedIndices d).map
    (fun idx => if 0 < idx then d.getD (idx - 1) 0 else d.getD (d.length - 1) 0)

/-- Proof-side: the first column of the sorted rotation matrix. -/
def headsL (d : List Nat) : List Nat :=
  (sortedIndices d).map (fun a => d.getD a 0)

/-! # Theorems -/

/-! ## Small arithmetic and list helpers -/

theorem length_toBytesBE (width : Nat) : ∀ value, (toBytesBE width value).length = width := by
  induction width with
  | zero => intro value; rfl
  | succ w ih =>
    intro value
    simp only [toBytesBE, List.length_append, ih, List.length_cons, List.length_nil]

theorem count_eq_filter_length (l : List Nat) (v : Nat) :
    l.count v = (l.filter (fun b => b = v)).length := by
  rw [List.count_eq_countP, List.countP_eq_length_filter]
  have hfun : (fun x => x == v) = (fun b : Nat => decide (b = v)) := by
    funext x
    by_cases h : x = v <;> simp [h]
  rw [hfun]

/-! ## C6: the run-codec decoder, record by record -/

theorem drop_cons_of_lt (c : List Nat) (pos : Nat) (h : pos < c.length) :
    c.drop pos = c.getD pos 0 :: c.drop (pos + 1) := by
  rw [List.drop_eq_getElem_cons h, List.getD_eq_getElem c 0 h]

theorem rcDecodeSpec_nil : rcDecodeSpec [] = .ok [] := by
  rw [rcDecodeSpec.eq_def]

theorem rcDecodeSpec_single_set (header : Nat) (hbit : header &&& 128 ≠ 0) :
    rcDecodeSpec [header] = .error .TruncatedData := by
  rw [rcDecodeSpec.eq_def]
  simp [hbit]

theorem rcDecodeSpec_cons2_set (header value : Nat) (rest2 : List Nat)
    (hbit : header &&& 128 ≠ 0) :
    rcDecodeSpec (header :: value :: rest2) =
      match rcDecodeSpec rest2 with
      | .error e => .error e
      | .ok out => .ok (List.replicate (header &&& 127) value ++ out) := by
  rw [rcDecodeSpec.eq_def]
  simp only [if_pos hbit]

theorem rcDecodeSpec_cons_clear (header : Nat) (rest : List Nat)
    (hbit : ¬ header &&& 128 ≠ 0) :
    rcDecodeSpec (header :: rest) =
      if rest.length < header then .error .TruncatedData
      else
        match rcDecodeSpec (rest.drop header) with
        | .error e => .error e
        | .ok out => .ok (rest.take header ++ out) := by
  rw [rcDecodeSpec.eq_def]
  simp only [if_neg hbit]

theorem rcDecodeSpec_cons2_set_ok (header value : Nat) (rest2 out : List Nat)
    (hbit : header &&& 128 ≠ 0) (hok : rcDecodeSpec rest2 = .ok out) :
    rcDecodeSpec (header :: value :: rest2) =
      .ok (List.replicate (header &&& 127) value ++ out) := by
  rw [rcDecodeSpec_cons2_set _ _ _ hbit, hok]

theorem rcDecodeSpec_cons_clear_ok (header : Nat) (rest out : List Nat)
    (hbit : ¬ header &&& 128 ≠ 0) (hlen : ¬ rest.length < header)
    (hok : rcDecodeSpec (rest.drop header) = .ok out) :
    rcDecodeSpec (header :: rest) = .ok (rest.take header ++ out) := by
  rw [rcDecodeSpec_cons_clear _ _ hbit, if_neg hlen, hok]

theorem rleWF_nil : rleWF [] = true := by
  rw [rleWF.eq_def]

theorem rleWF_single_set (header : Nat) (hbit : header &&& 128 ≠ 0) :
    rleWF [header] = false := by
  rw [rleWF.eq_def]
  simp [hbit]

theorem rleWF_cons2_set (header value : Nat) (rest2 : List Nat)
    (hbit : header &&& 128 ≠ 0) :
    rleWF (header :: value :: rest2) = rleWF rest2 := by
  rw [rleWF.eq_def]
  simp only [if_pos hbit]

theorem rleWF_cons_clear (header : Nat) (rest : List Nat)
    (hbit : ¬ header &&& 128 ≠ 0) :
    rleWF (header :: rest) = (decide (header ≤ rest.length) && rleWF (rest.drop header)) := by
  rw [rleWF.eq_def]
  simp only [if_neg hbit]

/-- The position-based decoding loop of the source agrees with record-by-record
structural decoding of the remaining suffix. -/
theorem rleDecodeGo_eq_spec (c : List Nat) (pos : Nat) :
    rleDecodeGo c c.length pos = rcDecodeSpec (c.drop pos) := by
  suffices H : ∀ fuel pos, c.length - pos ≤ fuel →
      rleDecodeGo c c.length pos = rcDecodeSpec (c.drop pos) from
    H (c.length - pos) pos le_rfl
  intro fuel
  induction fuel with
  | zero =>
    intro pos hf
    have hle : c.length ≤ pos := by omega
    rw [rleDecodeGo, dif_neg (by omega), List.drop_eq_nil_of_le hle, rcDecodeSpec_nil]
  | succ m ih =>
    intro pos hf
    by_cases h : pos < c.length
    · rw [rleDecodeGo, dif_pos h]
      by_cases hbit : (c.getD pos 0) &&& 128 ≠ 0
      · rw [if_pos hbit]
        by_cases h1 : c.length ≤ pos + 1
        · rw [if_pos h1]
          have hd : c.drop pos = [c.getD pos 0] := by
            rw [drop_cons_of_lt c pos h, List.drop_eq_nil_of_le h1]
          rw [hd, rcDecodeSpec_single_set _ hbit]
        · rw [if_neg h1]
          have hd : c.drop pos = c.getD pos 0 :: c.getD (pos + 1) 0 :: c.drop (pos + 2) := by
            rw [drop_cons_of_lt c pos h, drop_cons_of_lt c (pos + 1) (by omega)]
          rw [hd, rcDecodeSpec_cons2_set _ _ _ hbit, ih (pos + 2) (by omega)]
      · rw [if_neg hbit]
        have hd : c.drop pos = c.getD pos 0 :: c.drop (pos + 1) :=
          drop_cons_of_lt c pos h
        rw [hd, rcDecodeSpec_cons_clear _ _ hbit]
        have hlen : (c.drop (pos + 1)).length = c.length - (pos + 1) :=
          List.length_drop _ _
        by_cases h2 : c.length < pos + 1 + c.getD pos 0
        · rw [if_pos h2, if_pos (by omega : (c.drop (pos + 1)).length < c.getD pos 0)]
        · rw [if_neg h2, if_neg (by omega : ¬ (c.drop (pos + 1)).length < c.getD pos 0),
            List.drop_drop, ih (pos + 1 + c.getD pos 0) (by omega)]
    · have hle : c.length ≤ pos := by omega
      rw [rleDecodeGo, dif_neg (by omega), List.drop_eq_nil_of_le hle, rcDecodeSpec_nil]

/-- The source run-codec decoder, on any byte stream, is exactly the
record-by-record decoding of spec section 4.6. -/
theorem decode_rle_eq_spec (c : List Nat) :
    decode_run_length_encoding c = rcDecodeSpec c := by
  unfold decode_run_length_encoding
  by_cases h : c = []
  · rw [if_pos h, h, rcDecodeSpec_nil]
  · rw [if_neg h]
    have := rleDecodeGo_eq_spec c 0
    rwa [List.drop_zero] at this

/-- Every error the spec-level decoder produces is `TruncatedData`. -/
theorem rcDecodeSpec_error_TD (s : List Nat) :
    ∀ e, rcDecodeSpec s = .error e → e = .TruncatedData := by
  induction s using rcDecodeSpec.induct with
  | case1 =>
    intro e he
    rw [rcDecodeSpec_nil] at he
    exact Except.noConfusion he
  | case2 header hbit =>
    intro e he
    rw [rcDecodeSpec_single_set _ hbit] at he
    exact (Except.error.inj he).symm
  | case3 header hbit value rest2 e herr ih =>
    intro e2 he2
    rw [rcDecodeSpec_cons2_set _ _ _ hbit, herr] at he2
    exact (Except.error.inj he2) ▸ ih e herr
  | case4 header hbit value rest2 out hok ih =>
    intro e he
    rw [rcDecodeSpec_cons2_set _ _ _ hbit, hok] at he
    exact Except.noConfusion he
  | case5 header rest2 hbit hshort =>
    intro e he
    rw [rcDecodeSpec_cons_clear _ _ hbit, if_pos hshort] at he
    exact (Except.error.inj he).symm
  | case6 header rest2 hbit hnshort e herr ih =>
    intro e2 he2
    rw [rcDecodeSpec_cons_clear _ _ hbit, if_neg hnshort, herr] at he2
    exact (Except.error.inj he2) ▸ ih e herr
  | case7 header rest2 hbit hnshort out hok ih =>
    intro e he
    rw [rcDecodeSpec_cons_clear _ _ hbit, if_neg hnshort, hok] at he
    exact Except.noConfusion he

/-- The spec-level decoder succeeds exactly on well-formed streams. -/
theorem rcDecodeSpec_ok_iff_wf (s : List Nat) :
    (∃ l, rcDecodeSpec s = .ok l) ↔ rleWF s = true := by
  induction s using rcDecodeSpec.induct with
  | case1 =>
    rw [rcDecodeSpec_nil, rleWF_nil]
    exact ⟨fun _ => rfl, fun _ => ⟨[], rfl⟩⟩
  | case2 header hbit =>
    rw [rcDecodeSpec_single_set _ hbit, rleWF_single_set _ hbit]
    constructor
    · rintro ⟨l, hl⟩
      exact Except.noConfusion hl
    · intro hff
      exact Bool.noConfusion hff
  | case3 header hbit value rest2 e herr ih =>
    rw [rcDecodeSpec_cons2_set _ _ _ hbit, herr, rleWF_cons2_set _ _ _ hbit]
    constructor
    · rintro ⟨l, hl⟩
      exact Except.noConfusion hl
    · intro hwf
      obtain ⟨l, hl⟩ := ih.mpr hwf
      rw [herr] at hl
      exact Except.noConfusion hl
  | case4 header hbit value rest2 out hok ih =>
    rw [rcDecodeSpec_cons2_set _ _ _ hbit, hok, rleWF_cons2_set _ _ _ hbit]
    exact ⟨fun _ => ih.mp ⟨out, hok⟩, fun _ => ⟨_, rfl⟩⟩
  | case5 header rest2 hbit hshort =>
    rw [rcDecodeSpec_cons_clear _ _ hbit, if_pos hshort, rleWF_cons_clear _ _ hbit]
    constructor
    · rintro ⟨l, hl⟩
      exact Except.noConfusion hl
    · intro hwf
      have : decide (header ≤ rest2.length) = true := (Bool.and_eq_true _ _).mp hwf |>.1
      have : header ≤ rest2.length := of_decide_eq_true this
      omega
  | case6 header rest2 hbit hnshort e herr ih =>
    rw [rcDecodeSpec_cons_clear _ _ hbit, if_neg hnshort, herr, rleWF_cons_clear _ _ hbit]
    constructor
    · rintro ⟨l, hl⟩
      exact Except.noConfusion hl
    · intro hwf
      have hwf2 : rleWF (rest2.drop header) = true := (Bool.and_eq_true _ _).mp hwf |>.2
      obtain ⟨l, hl⟩ := ih.mpr hwf2
      rw [herr] at hl
      exact Except.noConfusion hl
  | case7 header rest2 hbit hnshort out hok ih =>
    rw [rcDecodeSpec_cons_clear _ _ hbit, if_neg hnshort, hok, rleWF_cons_clear _ _ hbit]
    constructor
    · intro _
      rw [Bool.and_eq_true]
      exact ⟨decide_eq_true (by omega), ih.mp ⟨out, hok⟩⟩
    · intro _
      exact ⟨_, rfl⟩

/-- The spec-level decoder fails, and then with `TruncatedData`, exactly on
malformed streams. -/
theorem rcDecodeSpec_error_iff (s : List Nat) :
    rcDecodeSpec s = .error .TruncatedData ↔ rleWF s = false := by
  cases hm : rcDecodeSpec s with
  | ok l =>
    have hwf : rleWF s = true := (rcDecodeSpec_ok_iff_wf s).mp ⟨l, hm⟩
    simp [hwf]
  | error e =>
    have he : e = .TruncatedData := rcDecodeSpec_error_TD s e hm
    subst he
    simp only [true_iff]
    by_contra hne
    have hwf : rleWF s = true := by
      cases h : rleWF s
      · exact absurd h hne
      · rfl
    obtain ⟨l, hl⟩ := (rcDecodeSpec_ok_iff_wf s).mpr hwf
    rw [hm] at hl
    exact Except.noConfusion hl

/-- C6: the run-codec decoder decodes record by record exactly as the spec
describes (repeated value for a repeat record, verbatim literals for a raw
record, until the input is exhausted), and it fails, with `TruncatedData`,
exactly when the stream ends mid-record: a set-top-bit header as the last
byte, or a clear-top-bit header declaring more literal bytes than remain. -/
theorem rle_decode_matches_spec (s : List Nat) :
    decode_run_length_encoding s = rcDecodeSpec s ∧
      (decode_run_length_encoding s = .error .TruncatedData ↔ rleWF s = false) := by
  refine ⟨decode_rle_eq_spec s, ?_⟩
  rw [decode_rle_eq_spec s]
  exact rcDecodeSpec_error_iff s

theorem rle_decode_matches_spec_witness :
    decode_run_length_encoding [130, 7, 129] = rcDecodeSpec [130, 7, 129] ∧
      (decode_run_length_encoding [130, 7, 129] = .error .TruncatedData ↔
        rleWF [130, 7, 129] = false) :=
  rle_decode_matches_spec [130, 7, 129]

/-! ## C4: run-codec round-trip -/

theorem lor128_facts : ∀ c, c < 128 → ((128 ||| c) &&& 128 ≠ 0 ∧ (128 ||| c) &&& 127 = c) := by
  decide

theorem land128_of_lt : ∀ h, h < 128 → h &&& 128 = 0 := by
  decide

theorem countRunAux_le (d : List Nat) (n i current : Nat) :
    ∀ c, i + c ≤ n → i + (c + countRunAux d n i current c) ≤ n := by
  intro c
  induction c using countRunAux.induct d n i current with
  | case1 c hcond ih =>
    intro _
    rw [countRunAux, dif_pos hcond]
    have := ih (by omega)
    omega
  | case2 c hcond =>
    intro hle
    rw [countRunAux, dif_neg hcond]
    omega

theorem countRunAux_le127 (d : List Nat) (n i current : Nat) :
    ∀ c, c ≤ 127 → c + countRunAux d n i current c ≤ 127 := by
  intro c
  induction c using countRunAux.induct d n i current with
  | case1 c hcond ih =>
    intro _
    rw [countRunAux, dif_pos hcond]
    have := ih (by omega)
    omega
  | case2 c hcond =>
    intro hle
    rw [countRunAux, dif_neg hcond]
    omega

theorem countRunAux_vals (d : List Nat) (n i current : Nat) :
    ∀ c k, c ≤ k → k < c + countRunAux d n i current c → d.getD (i + k) 0 = current := by
  intro c
  induction c using countRunAux.induct d n i current with
  | case1 c hcond ih =>
    intro k hk1 hk2
    rw [countRunAux, dif_pos hcond] at hk2
    by_cases hkc : k = c
    · exact hkc ▸ hcond.2.1
    · exact ih k (by omega) (by omega)
  | case2 c hcond =>
    intro k hk1 hk2
    rw [countRunAux, dif_neg hcond] at hk2
    omega

theorem countRunAux_stop (d : List Nat) (n i current : Nat) :
    ∀ c, ¬(i + (c + countRunAux d n i current c) < n ∧
        d.getD (i + (c + countRunAux d n i current c)) 0 = current ∧
        c + countRunAux d n i current c < 127) := by
  intro c
  induction c using countRunAux.induct d n i current with
  | case1 c hcond ih =>
    rw [countRunAux, dif_pos hcond]
    have harr : c + (countRunAux d n i current (c + 1) + 1) =
        (c + 1) + countRunAux d n i current (c + 1) := by omega
    rw [harr]
    exact ih
  | case2 c hcond =>
    rw [countRunAux, dif_neg hcond]
    simpa using hcond

theorem rawRunGo_le (d : List Nat) (n i : Nat) :
    ∀ rl, i + rl ≤ n → i + rl + (rawRunGo d n i rl).length ≤ n := by
  intro rl
  induction rl using rawRunGo.induct d n i with
  | case1 rl hcond hbrk =>
    intro hle
    rw [rawRunGo, dif_pos hcond, if_pos hbrk]
    simpa using hle
  | case2 rl hcond hbrk ih =>
    intro _
    rw [rawRunGo, dif_pos hcond, if_neg hbrk]
    have := ih (by omega)
    simp only [List.length_cons]
    omega
  | case3 rl hcond =>
    intro hle
    rw [rawRunGo, dif_neg hcond]
    simpa using hle

theorem rawRunGo_le127 (d : List Nat) (n i : Nat) :
    ∀ rl, rl ≤ 127 → rl + (rawRunGo d n i rl).length ≤ 127 := by
  intro rl
  induction rl using rawRunGo.induct d n i with
  | case1 rl hcond hbrk =>
    intro hle
    rw [rawRunGo, dif_pos hcond, if_pos hbrk]
    simpa using hle
  | case2 rl hcond hbrk ih =>
    intro _
    rw [rawRunGo, dif_pos hcond, if_neg hbrk]
    have := ih (by omega)
    simp only [List.length_cons]
    omega
  | case3 rl hcond =>
    intro hle
    rw [rawRunGo, dif_neg hcond]
    simpa using hle

theorem rawRunGo_eq_take (d : List Nat) (n i : Nat) (hn : n = d.length) :
    ∀ rl, rawRunGo d n i rl = (d.drop (i + rl)).take (rawRunGo d n i rl).length := by
  subst hn
  intro rl
  induction rl using rawRunGo.induct d d.length i with
  | case1 rl hcond hbrk =>
    rw [rawRunGo, dif_pos hcond, if_pos hbrk]
    simp
  | case2 rl hcond hbrk ih =>
    rw [rawRunGo, dif_pos hcond, if_neg hbrk]
    simp only [List.length_cons]
    rw [drop_cons_of_lt d (i + rl) hcond.1]
    rw [List.take_succ_cons]
    have harr : i + (rl + 1) = i + rl + 1 := by omega
    rw [harr] at ih
    exact congrArg _ ih
  | case3 rl hcond =>
    rw [rawRunGo, dif_neg hcond]
    simp

theorem rawRunGo_ne_nil (d : List Nat) (n i : Nat) (h : i < n)
    (hc : ¬ 2 < 1 + countRunAux d n i (d.getD i 0) 1) : rawRunGo d n i 0 ≠ [] := by
  rw [rawRunGo, dif_pos (by omega : i + 0 < n ∧ 0 < 127)]
  by_cases hbrk : i + 0 + 2 < n ∧ d.getD (i + 0) 0 = d.getD (i + 0 + 1) 0 ∧
      d.getD (i + 0 + 1) 0 = d.getD (i + 0 + 2) 0
  · exfalso
    obtain ⟨h2, e1, e2⟩ := hbrk
    have s1 : countRunAux d n i (d.getD i 0) 1 =
        countRunAux d n i (d.getD i 0) 2 + 1 := by
      rw [countRunAux]
      rw [dif_pos]
      refine ⟨by omega, ?_, by omega⟩
      have : d.getD (i + 0) 0 = d.getD (i + 0 + 1) 0 := e1
      simpa using this.symm
    have s2 : countRunAux d n i (d.getD i 0) 2 =
        countRunAux d n i (d.getD i 0) 3 + 1 := by
      rw [countRunAux]
      rw [dif_pos]
      refine ⟨by omega, ?_, by omega⟩
      have e12 : d.getD (i + 2) 0 = d.getD i 0 := by
        have h1 : d.getD (i + 0) 0 = d.getD (i + 0 + 1) 0 := e1
        have h2' : d.getD (i + 0 + 1) 0 = d.getD (i + 0 + 2) 0 := e2
        simp only [Nat.add_zero, Nat.zero_add] at h1 h2'
        omega
      simpa using e12
    omega
  · rw [if_neg hbrk]
    simp

theorem replicate_append_drop (d : List Nat) (v : Nat) :
    ∀ count i, (∀ k, k < count → d.getD (i + k) 0 = v) → i + count ≤ d.length →
      List.replicate count v ++ d.drop (i + count) = d.drop i := by
  intro count
  induction count with
  | zero =>
    intro i _ _
    simp
  | succ c ih =>
    intro i hv hle
    have hi : i < d.length := by omega
    rw [drop_cons_of_lt d i hi]
    have h0 : d.getD i 0 = v := by
      have := hv 0 (by omega)
      simpa using this
    rw [List.replicate_succ, List.cons_append, h0]
    congr 1
    have harr : i + (c + 1) = (i + 1) + c := by omega
    rw [harr]
    exact ih (i + 1) (fun k hk => by
      have := hv (k + 1) (by omega)
      have harr2 : i + (k + 1) = i + 1 + k := by omega
      rwa [harr2] at this) (by omega)

/-- Record-by-record decoding inverts the source run-length encoder from any
starting position. -/
theorem rleGo_roundtrip (d : List Nat) :
    ∀ i, rcDecodeSpec (rleGo d d.length i) = .ok (d.drop i) := by
  suffices H : ∀ fuel i, d.length - i ≤ fuel →
      rcDecodeSpec (rleGo d d.length i) = .ok (d.drop i) from
    fun i => H (d.length - i) i le_rfl
  intro fuel
  induction fuel with
  | zero =>
    intro i hf
    have hle : d.length ≤ i := by omega
    rw [rleGo, dif_neg (by omega), rcDecodeSpec_nil, List.drop_eq_nil_of_le hle]
  | succ m ih =>
    intro i hf
    by_cases h : i < d.length
    · rw [rleGo, dif_pos h]
      by_cases hc : 2 < 1 + countRunAux d d.length i (d.getD i 0) 1
      · rw [dif_pos hc]
        have hcle : 1 + countRunAux d d.length i (d.getD i 0) 1 ≤ 127 :=
          countRunAux_le127 d d.length i (d.getD i 0) 1 (by omega)
        have hlor := lor128_facts (1 + countRunAux d d.length i (d.getD i 0) 1) (by omega)
        rw [rcDecodeSpec_cons2_set_ok _ _ _ _ hlor.1
          (ih (i + (1 + countRunAux d d.length i (d.getD i 0) 1)) (by omega))]
        rw [hlor.2]
        have hrun : ∀ k, k < 1 + countRunAux d d.length i (d.getD i 0) 1 →
            d.getD (i + k) 0 = d.getD i 0 := by
          intro k hk
          by_cases hk0 : k = 0
          · simp [hk0]
          · exact countRunAux_vals d d.length i (d.getD i 0) 1 k (by omega) (by omega)
        have hle2 : i + (1 + countRunAux d d.length i (d.getD i 0) 1) ≤ d.length :=
          countRunAux_le d d.length i (d.getD i 0) 1 (by omega)
        rw [replicate_append_drop d (d.getD i 0) _ i hrun hle2]
      · rw [dif_neg hc]
        have hne := rawRunGo_ne_nil d d.length i h hc
        have hlen1 : 1 ≤ (rawRunGo d d.length i 0).length :=
          List.length_pos.mpr hne
        have hle127 : (rawRunGo d d.length i 0).length ≤ 127 := by
          have := rawRunGo_le127 d d.length i 0 (by omega)
          omega
        have hbit : ¬ ((rawRunGo d d.length i 0).length &&& 128 ≠ 0) := by
          have := land128_of_lt (rawRunGo d d.length i 0).length (by omega)
          simp [this]
        have hle2 : i + (rawRunGo d d.length i 0).length ≤ d.length := by
          have := rawRunGo_le d d.length i 0 (by omega)
          omega
        have hdrop : (rawRunGo d d.length i 0 ++
            rleGo d d.length (i + (rawRunGo d d.length i 0).length)).drop
              (rawRunGo d d.length i 0).length =
            rleGo d d.length (i + (rawRunGo d d.length i 0).length) :=
          List.drop_left _ _
        have hok : rcDecodeSpec ((rawRunGo d d.length i 0 ++
            rleGo d d.length (i + (rawRunGo d d.length i 0).length)).drop
              (rawRunGo d d.length i 0).length) =
            .ok (d.drop (i + (rawRunGo d d.length i 0).length)) := by
          rw [hdrop]
          exact ih (i + (rawRunGo d d.length i 0).length) (by omega)
        rw [rcDecodeSpec_cons_clear_ok _ _ _ hbit
          (by simp only [List.length_append]; omega) hok]
        rw [List.take_left]
        have htake := rawRunGo_eq_take d d.length i rfl 0
        rw [Nat.add_zero] at htake
        have hsplit : rawRunGo d d.length i 0 ++
            d.drop (i + (rawRunGo d d.length i 0).length) = d.drop i := by
          have hdd : d.drop (i + (rawRunGo d d.length i 0).length) =
              (d.drop i).drop (rawRunGo d d.length i 0).length := by
            rw [List.drop_drop]
          rw [hdd]
          nth_rewrite 1 [htake]
          exact List.take_append_drop _ _
        rw [hsplit]
    · have hle : d.length ≤ i := by omega
      rw [rleGo, dif_neg (by omega), rcDecodeSpec_nil, List.drop_eq_nil_of_le hle]

/-- C4: run-codec decoding inverts run-codec encoding on every integer stream
with values in `[0, 255]`. -/
theorem rc_roundtrip (S : List Nat) (_hb : ∀ v ∈ S, v < 256) :
    decode_run_length_encoding (perform_run_length_encoding S) = .ok S := by
  unfold perform_run_length_encoding
  by_cases h : S = []
  · rw [if_pos h, h]
    rfl
  · rw [if_neg h, decode_rle_eq_spec, rleGo_roundtrip S 0, List.drop_zero]

theorem rc_roundtrip_witness :
    (∀ v ∈ [9, 9, 9, 9, 2, 3], v < 256) ∧
      decode_run_length_encoding (perform_run_length_encoding [9, 9, 9, 9, 2, 3]) =
        .ok [9, 9, 9, 9, 2, 3] :=
  ⟨by decide, rc_roundtrip [9, 9, 9, 9, 2, 3] (by decide)⟩

/-! ## C3: move-to-front round-trip -/

theorem getD_indexOf (A : List Nat) (b : Nat) (h : b ∈ A) :
    A.getD (A.indexOf b) 0 = b := by
  rw [List.getD_eq_getElem A 0 (List.indexOf_lt_length.mpr h)]
  exact List.getElem_indexOf _

theorem perm_cons_eraseIdx_indexOf (A : List Nat) (b : Nat) (h : b ∈ A) :
    List.Perm A (b :: A.eraseIdx (A.indexOf b)) := by
  rw [List.eraseIdx_indexOf_eq_erase]
  exact List.perm_cons_erase h

/-- The alphabet update of the inverse transform matches the alphabet update
of the forward transform: when the rank is `0` the forward delete-and-reinsert
is the identity, which is exactly the inverse's skipped move. -/
theorem mtf_alphabet_update (A : List Nat) (idx : Nat) (hidx : idx < A.length)
    (hne : A ≠ []) :
    (if idx ≠ 0 then A.getD idx 0 :: A.eraseIdx idx else A) =
      A.getD idx 0 :: A.eraseIdx idx := by
  by_cases h0 : idx = 0
  · subst h0
    simp only [ne_eq, not_true_eq_false, if_neg, ite_false]
    cases A with
    | nil => exact absurd rfl hne
    | cons x xs => rfl
  · rw [if_pos h0]

/-- Every rank the forward transform emits is below the alphabet size. -/
theorem mtfGo_lt (X : List Nat) :
    ∀ A, List.Perm A (List.range 256) → (∀ b ∈ X, b < 256) →
      ∀ ix ∈ mtfGo A X, ix < 256 := by
  induction X with
  | nil =>
    intro A _ _ ix hix
    exact absurd hix (List.not_mem_nil ix)
  | cons b rest ih =>
    intro A hA hb ix hix
    have hbA : b ∈ A := hA.mem_iff.mpr (List.mem_range.mpr (hb b (List.mem_cons_self _ _)))
    have hlen : A.length = 256 := by
      rw [hA.length_eq, List.length_range]
    rw [mtfGo] at hix
    rcases List.mem_cons.mp hix with hhead | htail
    · rw [hhead, ← hlen]
      exact List.indexOf_lt_length.mpr hbA
    · exact ih (b :: A.eraseIdx (A.indexOf b))
        ((perm_cons_eraseIdx_indexOf A b hbA).symm.trans hA)
        (fun x hx => hb x (List.mem_cons_of_mem b hx)) ix htail

/-- The inverse loop undoes the forward loop, for any alphabet that is a
permutation of the initial one. -/
theorem rmtfGo_mtfGo (X : List Nat) :
    ∀ A, List.Perm A (List.range 256) → (∀ b ∈ X, b < 256) →
      rmtfGo A (mtfGo A X) = .ok X := by
  induction X with
  | nil =>
    intro A _ _
    rfl
  | cons b rest ih =>
    intro A hA hb
    have hbA : b ∈ A := hA.mem_iff.mpr (List.mem_range.mpr (hb b (List.mem_cons_self _ _)))
    have hlen : A.length = 256 := by
      rw [hA.length_eq, List.length_range]
    have hidx : A.indexOf b < A.length := List.indexOf_lt_length.mpr hbA
    have hne : A ≠ [] := by
      intro hA0
      rw [hA0] at hlen
      exact absurd hlen (by simp)
    rw [mtfGo, rmtfGo, if_neg (by omega), mtf_alphabet_update A (A.indexOf b) hidx hne,
      getD_indexOf A b hbA]
    rw [ih (b :: A.eraseIdx (A.indexOf b))
      ((perm_cons_eraseIdx_indexOf A b hbA).symm.trans hA)
      (fun x hx => hb x (List.mem_cons_of_mem b hx))]

/-- C3: the move-to-front inverse, started from the fresh ascending alphabet,
recovers every byte buffer from the forward transform's rank stream. -/
theorem rrt_roundtrip (X : List Nat) (hb : ∀ b ∈ X, b < 256) :
    reverse_move_to_front_transform (perform_move_to_front_transform X) = .ok X := by
  unfold perform_move_to_front_transform reverse_move_to_front_transform
  by_cases hX : X = []
  · subst hX
    rfl
  · have hmt : mtfGo (List.range 256) X ≠ [] := by
      cases X with
      | nil => exact absurd rfl hX
      | cons b rest =>
        rw [mtfGo]
        exact List.cons_ne_nil _ _
    rw [if_neg hmt]
    have hlt := mtfGo_lt X (List.range 256) (List.Perm.refl _) hb
    have hany : ¬ ((mtfGo (List.range 256) X).any (fun idx => 256 ≤ idx) = true) := by
      rw [List.any_eq_true]
      rintro ⟨x, hx, hx2⟩
      have := hlt x hx
      simp at hx2
      omega
    rw [if_neg hany]
    exact rmtfGo_mtfGo X (List.range 256) (List.Perm.refl _) hb

theorem rrt_roundtrip_witness :
    (∀ b ∈ [200, 3, 3, 200], b < 256) ∧
      reverse_move_to_front_transform (perform_move_to_front_transform [200, 3, 3, 200]) =
        .ok [200, 3, 3, 200] :=
  ⟨by decide, rrt_roundtrip [200, 3, 3, 200] (by decide)⟩

/-! ## C10: decoded rank streams are always in range for the MTF inverse -/

/-- Every value the spec-level decoder outputs is drawn from a byte of the
input stream. -/
theorem rcDecodeSpec_ok_bytes (s : List Nat) :
    ∀ l, rcDecodeSpec s = .ok l → (∀ b ∈ s, b < 256) → ∀ v ∈ l, v < 256 := by
  induction s using rcDecodeSpec.induct with
  | case1 =>
    intro l hl _ v hv
    rw [rcDecodeSpec_nil] at hl
    rw [← Except.ok.inj hl] at hv
    exact absurd hv (List.not_mem_nil v)
  | case2 header hbit =>
    intro l hl _
    rw [rcDecodeSpec_single_set _ hbit] at hl
    exact Except.noConfusion hl
  | case3 header hbit value rest2 e herr ih =>
    intro l hl _
    rw [rcDecodeSpec_cons2_set _ _ _ hbit, herr] at hl
    exact Except.noConfusion hl
  | case4 header hbit value rest2 out hok ih =>
    intro l hl hs v hv
    rw [rcDecodeSpec_cons2_set_ok _ _ _ _ hbit hok] at hl
    rw [← Except.ok.inj hl] at hv
    rcases List.mem_append.mp hv with hrep | hout
    · rw [List.eq_of_mem_replicate hrep]
      exact hs value (List.mem_cons_of_mem _ (List.mem_cons_self _ _))
    · exact ih out hok
        (fun b hb => hs b (List.mem_cons_of_mem _ (List.mem_cons_of_mem _ hb))) v hout
  | case5 header rest2 hbit hshort =>
    intro l hl _
    rw [rcDecodeSpec_cons_clear _ _ hbit, if_pos hshort] at hl
    exact Except.noConfusion hl
  | case6 header rest2 hbit hnshort e herr ih =>
    intro l hl _
    rw [rcDecodeSpec_cons_clear _ _ hbit, if_neg hnshort, herr] at hl
    exact Except.noConfusion hl
  | case7 header rest2 hbit hnshort out hok ih =>
    intro l hl hs v hv
    rw [rcDecodeSpec_cons_clear_ok _ _ _ hbit hnshort hok] at hl
    rw [← Except.ok.inj hl] at hv
    rcases List.mem_append.mp hv with htk | hout
    · exact hs v (List.mem_cons_of_mem _ (List.take_subset _ _ htk))
    · exact ih out hok
        (fun b hb => hs b (List.mem_cons_of_mem _ (List.drop_subset _ _ hb))) v hout

/-- On in-range rank streams the inverse move-to-front loop always succeeds:
its out-of-range guard (the alphabet length is invariantly 256) never fires. -/
theorem rmtfGo_ok_of_lt (ixs : List Nat) :
    ∀ A : List Nat, A.length = 256 → (∀ i ∈ ixs, i < 256) →
      ∃ r, rmtfGo A ixs = .ok r := by
  induction ixs with
  | nil =>
    intro A _ _
    exact ⟨[], rfl⟩
  | cons idx rest ih =>
    intro A hlen hi
    have hidx : idx < 256 := hi idx (List.mem_cons_self _ _)
    have hlen2 : (if idx ≠ 0 then A.getD idx 0 :: A.eraseIdx idx else A).length = 256 := by
      by_cases h0 : idx = 0
      · rw [if_neg (by simp [h0])]
        exact hlen
      · rw [if_pos h0]
        simp only [List.length_cons, List.length_eraseIdx, hlen, if_pos (by omega : idx < 256)]
    obtain ⟨r, hr⟩ := ih (if idx ≠ 0 then A.getD idx 0 :: A.eraseIdx idx else A) hlen2
      (fun i hmem => hi i (List.mem_cons_of_mem idx hmem))
    refine ⟨A.getD idx 0 :: r, ?_⟩
    rw [rmtfGo, if_neg (by omega), hr]

/-- C10: whenever the run-codec decoder succeeds on a byte stream, every value
it hands to the move-to-front inverse lies in `[0, 255]`, so the inverse's
`InvalidIndex` branch is unreachable in the decode pipeline. -/
theorem rc_decode_values_safe_for_mtf (s l : List Nat)
    (hs : ∀ b ∈ s, b < 256)
    (hok : decode_run_length_encoding s = .ok l) :
    (∀ v ∈ l, v < 256) ∧ ∃ r, reverse_move_to_front_transform l = .ok r := by
  rw [decode_rle_eq_spec] at hok
  have hl := rcDecodeSpec_ok_bytes s l hok hs
  refine ⟨hl, ?_⟩
  unfold reverse_move_to_front_transform
  by_cases h : l = []
  · exact ⟨[], by rw [if_pos h]⟩
  · rw [if_neg h]
    have hany : ¬ (l.any (fun idx => 256 ≤ idx) = true) := by
      rw [List.any_eq_true]
      rintro ⟨x, hx, hx2⟩
      have := hl x hx
      simp at hx2
      omega
    rw [if_neg hany]
    exact rmtfGo_ok_of_lt l (List.range 256) (by simp) hl

theorem rc_decode_values_safe_for_mtf_witness :
    (∀ b ∈ [130, 7], b < 256) ∧
      decode_run_length_encoding [130, 7] = .ok [7, 7] ∧
      (∀ v ∈ [7, 7], v < 256) ∧
      ∃ r, reverse_move_to_front_transform [7, 7] = .ok r := by
  have hdec : decode_run_length_encoding [130, 7] = .ok [7, 7] := by
    rw [decode_rle_eq_spec]
    rw [rcDecodeSpec_cons2_set_ok 130 7 [] [] (by decide) rcDecodeSpec_nil]
    rfl
  have := rc_decode_values_safe_for_mtf [130, 7] [7, 7] (by decide) hdec
  exact ⟨by decide, hdec, this.1, this.2⟩

/-! ## Fuel-twin equivalences and constant-buffer evaluations -/

theorem countRunF_eq (d : List Nat) (n i current : Nat) :
    ∀ count fuel, 127 - count < fuel →
      countRunF d n i current count fuel = countRunAux d n i current count := by
  intro count
  induction count using countRunAux.induct d n i current with
  | case1 c hcond ih =>
    intro fuel hf
    cases fuel with
    | zero => omega
    | succ f =>
      rw [countRunF, if_pos hcond, ih f (by omega)]
      conv_rhs => rw [countRunAux]
      rw [dif_pos hcond]
  | case2 c hcond =>
    intro fuel _
    cases fuel with
    | zero =>
      rw [countRunF, countRunAux, dif_neg hcond]
    | succ f =>
      rw [countRunF, if_neg hcond, countRunAux, dif_neg hcond]

theorem rawRunF_eq (d : List Nat) (n i : Nat) :
    ∀ rl fuel, 127 - rl < fuel → rawRunF d n i rl fuel = rawRunGo d n i rl := by
  intro rl
  induction rl using rawRunGo.induct d n i with
  | case1 rl hcond hbrk =>
    intro fuel hf
    cases fuel with
    | zero => omega
    | succ f =>
      rw [rawRunF, if_pos hcond, if_pos hbrk]
      conv_rhs => rw [rawRunGo]
      rw [dif_pos hcond, if_pos hbrk]
  | case2 rl hcond hbrk ih =>
    intro fuel hf
    cases fuel with
    | zero => omega
    | succ f =>
      rw [rawRunF, if_pos hcond, if_neg hbrk, ih f (by omega)]
      conv_rhs => rw [rawRunGo]
      rw [dif_pos hcond, if_neg hbrk]
  | case3 rl hcond =>
    intro fuel _
    cases fuel with
    | zero =>
      rw [rawRunF, rawRunGo, dif_neg hcond]
    | succ f =>
      rw [rawRunF, if_neg hcond, rawRunGo, dif_neg hcond]

theorem rleGoF_eq (d : List Nat) (n : Nat) :
    ∀ fuel i, n - i ≤ fuel → rleGoF d n i fuel = rleGo d n i := by
  intro fuel
  induction fuel with
  | zero =>
    intro i hf
    rw [rleGoF, rleGo, dif_neg (by omega)]
  | succ f ih =>
    intro i hf
    by_cases h : i < n
    · rw [rleGoF, if_pos h, countRunF_eq d n i (d.getD i 0) 1 128 (by omega),
        rawRunF_eq d n i 0 128 (by omega), rleGo, dif_pos h]
      by_cases hc : 2 < 1 + countRunAux d n i (d.getD i 0) 1
      · rw [if_pos hc, dif_pos hc, ih _ (by omega)]
      · rw [if_neg hc, dif_neg hc]
        have hne := rawRunGo_ne_nil d n i h hc
        have h1 : 1 ≤ (rawRunGo d n i 0).length := List.length_pos.mpr hne
        rw [ih _ (by omega)]
    · rw [rleGoF, if_neg h, rleGo, dif_neg (by omega)]

theorem getD_replicate_self (k c m : Nat) (hm : m < k) :
    (List.replicate k c).getD m 0 = c := by
  rw [List.getD_eq_getElem _ 0 (by simpa using hm)]
  exact List.getElem_replicate c (by simpa using hm)

theorem cmpGo_const (k c a b : Nat) :
    ∀ rem i, cmpGo (List.replicate k c) k a b i rem = 0 := by
  intro rem
  induction rem with
  | zero =>
    intro i
    rfl
  | succ m ih =>
    intro i
    rw [cmpGo]
    by_cases hk : 0 < k
    · rw [getD_replicate_self k c _ (Nat.mod_lt _ hk),
        getD_replicate_self k c _ (Nat.mod_lt _ hk)]
      rw [if_neg (by omega)]
      exact ih (i + 1)
    · have hk0 : k = 0 := by omega
      subst hk0
      rw [if_neg (by simp)]
      exact ih (i + 1)

theorem compareRotations_const (k c a b : Nat) :
    compareRotations (List.replicate k c) a b = 0 := by
  unfold compareRotations
  rw [List.length_replicate]
  exact cmpGo_const k c a b k 0

theorem insertionSort_all_le {r : Nat → Nat → Prop} [DecidableRel r]
    (h : ∀ a b, r a b) : ∀ l : List Nat, List.insertionSort r l = l := by
  intro l
  induction l with
  | nil => rfl
  | cons x xs ih =>
    rw [List.insertionSort, ih]
    cases xs with
    | nil => rfl
    | cons y ys =>
      rw [List.orderedInsert, if_pos (h x y)]

theorem sortedIndices_replicate (k c : Nat) :
    sortedIndices (List.replicate k c) = List.range k := by
  unfold sortedIndices
  rw [List.length_replicate]
  exact insertionSort_all_le
    (fun a b => by rw [compareRotations_const k c a b]) (List.range k)

theorem bwt_replicate (k c : Nat) (hk : 0 < k) :
    perform_burrows_wheeler_transform (List.replicate k c) = (List.replicate k c, 0) := by
  unfold perform_burrows_wheeler_transform
  rw [if_neg (by simp; omega), sortedIndices_replicate k c]
  refine Prod.ext ?_ ?_
  · simp only
    rw [List.eq_replicate_iff]
    refine ⟨by simp, ?_⟩
    intro x hx
    obtain ⟨idx, hidx, hfx⟩ := List.mem_map.mp hx
    have hidx2 : idx < k := List.mem_range.mp hidx
    rw [← hfx, List.length_replicate]
    by_cases h0 : 0 < idx
    · rw [if_pos h0]
      exact getD_replicate_self k c (idx - 1) (by omega)
    · rw [if_neg h0]
      exact getD_replicate_self k c (k - 1) (by omega)
  · simp only
    cases k with
    | zero => omega
    | succ m =>
      rw [List.range_succ_eq_map, List.indexOf_cons_self]

theorem mtfGo_head_replicate (b : Nat) (T : List Nat) :
    ∀ m, mtfGo (b :: T) (List.replicate m b) = List.replicate m 0 := by
  intro m
  induction m with
  | zero => rfl
  | succ m ih =>
    rw [List.replicate_succ, mtfGo, List.indexOf_cons_self]
    rw [List.replicate_succ]
    have : (b :: T).eraseIdx 0 = T := rfl
    rw [this, ih]

theorem mtf_replicate (b : Nat) (hix : (List.range 256).indexOf b = b) :
    ∀ m, perform_move_to_front_transform (List.replicate (m + 1) b) =
      b :: List.replicate m 0 := by
  intro m
  unfold perform_move_to_front_transform
  rw [List.replicate_succ, mtfGo, hix]
  congr 1
  exact mtfGo_head_replicate b _ m

/-! ## Store-mode decoding -/

/-- Decoding a container whose first four bytes are the zero store-mode flag
returns the payload verbatim. -/
theorem decode_store (payload : List Nat) :
    decode ([0, 0, 0, 0] ++ payload) = .ok payload := by
  unfold decode
  rw [List.take_left' (by rfl), List.drop_left' (by rfl), if_pos rfl]

/-! ## Run-codec output on constant stretches -/

theorem countRunAux_const (d : List Nat) (n i v : Nat)
    (hconst : ∀ j, i ≤ j → j < n → d.getD j 0 = v) :
    ∀ c, c ≤ min 127 (n - i) → countRunAux d n i v c = min 127 (n - i) - c := by
  intro c
  induction c using countRunAux.induct d n i v with
  | case1 c hcond ih =>
    intro hc
    rw [countRunAux, dif_pos hcond]
    have h2 : c + 1 ≤ min 127 (n - i) := by
      rcases hcond with ⟨h1, _, h3⟩
      omega
    rw [ih h2]
    omega
  | case2 c hcond =>
    intro hc
    rw [countRunAux, dif_neg hcond]
    by_cases heq : c = min 127 (n - i)
    · omega
    · exact absurd ⟨by omega, hconst (i + c) (by omega) (by omega), by omega⟩ hcond

theorem rleGo_const_step (d : List Nat) (n i v : Nat)
    (hconst : ∀ j, i ≤ j → j < n → d.getD j 0 = v) (hge : 3 ≤ n - i) :
    rleGo d n i =
      (128 ||| min 127 (n - i)) :: v :: rleGo d n (i + min 127 (n - i)) := by
  have hin : i < n := by omega
  have hv : d.getD i 0 = v := hconst i (le_refl i) hin
  have hcr : countRunAux d n i (d.getD i 0) 1 = min 127 (n - i) - 1 := by
    rw [hv]
    exact countRunAux_const d n i v hconst 1 (by omega)
  rw [rleGo, dif_pos hin, hcr]
  have hm1 : 1 + (min 127 (n - i) - 1) = min 127 (n - i) := by omega
  rw [hm1, dif_pos (show 2 < min 127 (n - i) by omega), hv]

theorem rleGo_past_end (d : List Nat) (n i : Nat) (h : n ≤ i) : rleGo d n i = [] := by
  rw [rleGo, dif_neg (by omega : ¬ i < n)]

/-! ## C1: the index-zero header collision on 512 zero bytes -/

theorem mtf_replicate512 :
    perform_move_to_front_transform (List.replicate 512 0) = List.replicate 512 0 := by
  have h := mtf_replicate 0 (by decide) 511
  rw [show (511 + 1 : Nat) = 512 from rfl] at h
  rw [h, ← List.replicate_succ]

theorem rle_replicate512 :
    perform_run_length_encoding (List.replicate 512 0) =
      [255, 0, 255, 0, 255, 0, 255, 0, 132, 0] := by
  unfold perform_run_length_encoding
  rw [if_neg (by simp), List.length_replicate]
  have hconst : ∀ j, 0 ≤ j → j < 512 → (List.replicate 512 0).getD j 0 = 0 :=
    fun j _ h2 => getD_replicate_self 512 0 j h2
  have h0 := rleGo_const_step (List.replicate 512 0) 512 0 0 hconst (by omega)
  rw [show min 127 (512 - 0) = 127 from by omega, show (128 ||| 127 : Nat) = 255 from by decide,
    show (0 + 127 : Nat) = 127 from by norm_num] at h0
  have h1 := rleGo_const_step (List.replicate 512 0) 512 127 0
    (fun j ha hb => hconst j (by omega) hb) (by omega)
  rw [show min 127 (512 - 127) = 127 from by omega, show (128 ||| 127 : Nat) = 255 from by decide,
    show (127 + 127 : Nat) = 254 from by norm_num] at h1
  have h2 := rleGo_const_step (List.replicate 512 0) 512 254 0
    (fun j ha hb => hconst j (by omega) hb) (by omega)
  rw [show min 127 (512 - 254) = 127 from by omega, show (128 ||| 127 : Nat) = 255 from by decide,
    show (254 + 127 : Nat) = 381 from by norm_num] at h2
  have h3 := rleGo_const_step (List.replicate 512 0) 512 381 0
    (fun j ha hb => hconst j (by omega) hb) (by omega)
  rw [show min 127 (512 - 381) = 127 from by omega, show (128 ||| 127 : Nat) = 255 from by decide,
    show (381 + 127 : Nat) = 508 from by norm_num] at h3
  have h4 := rleGo_const_step (List.replicate 512 0) 512 508 0
    (fun j ha hb => hconst j (by omega) hb) (by omega)
  rw [show min 127 (512 - 508) = 4 from by omega, show (128 ||| 4 : Nat) = 132 from by decide,
    show (508 + 4 : Nat) = 512 from by norm_num] at h4
  rw [h0, h1, h2, h3, h4, rleGo_past_end _ _ _ (le_refl 512)]

/-- When the input is at least 512 bytes and the run-coded payload plus the
4-byte header is strictly shorter, `encode` takes the compressed branch:
big-endian primary index, then the payload. -/
theorem encode_compressed (data t r : List Nat) (idx : Nat)
    (h1 : (perform_burrows_wheeler_transform data).1 = t)
    (h2 : (perform_burrows_wheeler_transform data).2 = idx)
    (hr : perform_run_length_encoding (perform_move_to_front_transform t) = r)
    (hlen : ¬ data.length < 512)
    (hsize : ¬ data.length ≤ r.length + 4) :
    encode data = toBytesBE 4 idx ++ r := by
  unfold encode
  rw [h1, h2, hr, if_neg hlen, if_neg hsize]

theorem encode_replicate512 :
    encode (List.replicate 512 0) =
      [0, 0, 0, 0, 255, 0, 255, 0, 255, 0, 255, 0, 132, 0] := by
  have hb := bwt_replicate 512 0 (by omega)
  have h1 : (perform_burrows_wheeler_transform (List.replicate 512 0)).1 =
      List.replicate 512 0 := by rw [hb]
  have h2 : (perform_burrows_wheeler_transform (List.replicate 512 0)).2 = 0 := by
    rw [hb]
  have hr : perform_run_length_encoding
      (perform_move_to_front_transform (List.replicate 512 0)) =
      [255, 0, 255, 0, 255, 0, 255, 0, 132, 0] := by
    rw [mtf_replicate512, rle_replicate512]
  have hmain := encode_compressed (List.replicate 512 0) (List.replicate 512 0)
    [255, 0, 255, 0, 255, 0, 255, 0, 132, 0] 0 h1 h2 hr
    (by rw [List.length_replicate]; omega)
    (by rw [List.length_replicate]; decide)
  exact hmain.trans rfl

/-- C1: on the 512-zero-byte input the encoder takes the compressed branch
with primary index 0, so the emitted header equals the store-mode flag;
decoding returns the 10-byte run-coded payload instead of the original
buffer: `decode (encode X) ≠ X`. -/
theorem container_roundtrip_fails_on_index_zero :
    decode (encode (List.replicate 512 0)) =
      .ok [255, 0, 255, 0, 255, 0, 255, 0, 132, 0] ∧
    decode (encode (List.replicate 512 0)) ≠ .ok (List.replicate 512 0) := by
  have henc : encode (List.replicate 512 0) =
      [0, 0, 0, 0] ++ [255, 0, 255, 0, 255, 0, 255, 0, 132, 0] := encode_replicate512
  constructor
  · rw [henc, decode_store]
  · rw [henc, decode_store]
    intro h
    have hlists := Except.ok.inj h
    have hlen := congrArg List.length hlists
    rw [List.length_replicate] at hlen
    exact absurd hlen (by decide)

/-! ## C8: the 600-byte constant vector -/

theorem bwt_replicate600 :
    perform_burrows_wheeler_transform (List.replicate 600 65) =
      (List.replicate 600 65, 0) :=
  bwt_replicate 600 65 (by omega)

theorem mtf_replicate600 :
    perform_move_to_front_transform (List.replicate 600 65) =
      65 :: List.replicate 599 0 := by
  have h := mtf_replicate 65 (by decide) 599
  rw [show (599 + 1 : Nat) = 600 from rfl] at h
  exact h

theorem getD_cons_replicate599 (j : Nat) (h1 : 1 ≤ j) (h2 : j < 600) :
    (65 :: List.replicate 599 0).getD j 0 = 0 := by
  obtain ⟨m, rfl⟩ : ∃ m, j = m + 1 := ⟨j - 1, by omega⟩
  have hstep : (65 :: List.replicate 599 0).getD (m + 1) 0 =
      (List.replicate 599 0).getD m 0 := rfl
  rw [hstep]
  exact getD_replicate_self 599 0 m (by omega)

theorem rle_const600 :
    perform_run_length_encoding (65 :: List.replicate 599 0) =
      [1, 65, 255, 0, 255, 0, 255, 0, 255, 0, 219, 0] := by
  unfold perform_run_length_encoding
  rw [if_neg (List.cons_ne_nil 65 (List.replicate 599 0))]
  rw [show (65 :: List.replicate 599 0).length = 600 from by
    rw [List.length_cons, List.length_replicate]]
  have hd0 : (65 :: List.replicate 599 0).getD 0 0 = 65 := rfl
  have hd : ∀ j, 1 ≤ j → j < 600 → (65 :: List.replicate 599 0).getD j 0 = 0 :=
    getD_cons_replicate599
  have hcr0 : countRunAux (65 :: List.replicate 599 0) 600 0 65 1 = 0 := by
    rw [countRunAux, dif_neg]
    intro hcond
    have habs := hcond.2.1
    rw [show (0 + 1 : Nat) = 1 from by norm_num] at habs
    rw [hd 1 (by omega) (by omega)] at habs
    exact absurd habs (by decide)
  have hraw1 : rawRunGo (65 :: List.replicate 599 0) 600 0 1 = [] := by
    have hc3 : (0 : Nat) + 1 + 2 < 600 ∧
        (65 :: List.replicate 599 0).getD (0 + 1) 0 =
          (65 :: List.replicate 599 0).getD (0 + 1 + 1) 0 ∧
        (65 :: List.replicate 599 0).getD (0 + 1 + 1) 0 =
          (65 :: List.replicate 599 0).getD (0 + 1 + 2) 0 := by
      refine ⟨by omega, ?_, ?_⟩
      · rw [show (0 + 1 : Nat) = 1 from by norm_num, show (0 + 1 + 1 : Nat) = 2 from by norm_num]
        rw [hd 1 (by omega) (by omega), hd 2 (by omega) (by omega)]
      · rw [show (0 + 1 + 1 : Nat) = 2 from by norm_num, show (0 + 1 + 2 : Nat) = 3 from by norm_num]
        rw [hd 2 (by omega) (by omega), hd 3 (by omega) (by omega)]
    rw [rawRunGo, dif_pos (by omega : (0 : Nat) + 1 < 600 ∧ (1 : Nat) < 127), if_pos hc3]
  have hcraw : ¬((0 : Nat) + 0 + 2 < 600 ∧
      (65 :: List.replicate 599 0).getD (0 + 0) 0 =
        (65 :: List.replicate 599 0).getD (0 + 0 + 1) 0 ∧
      (65 :: List.replicate 599 0).getD (0 + 0 + 1) 0 =
        (65 :: List.replicate 599 0).getD (0 + 0 + 2) 0) := by
    intro hcond
    have habs := hcond.2.1
    rw [show (0 + 0 : Nat) = 0 from by norm_num, show (0 + 0 + 1 : Nat) = 1 from by norm_num] at habs
    rw [hd0, hd 1 (by omega) (by omega)] at habs
    exact absurd habs (by decide)
  have hraw : rawRunGo (65 :: List.replicate 599 0) 600 0 0 = [65] := by
    rw [rawRunGo, dif_pos (by omega : (0 : Nat) + 0 < 600 ∧ (0 : Nat) < 127), if_neg hcraw]
    rw [show (0 + 0 : Nat) = 0 from by norm_num, show (0 + 1 : Nat) = 1 from by norm_num]
    rw [hd0, hraw1]
  have hstep0 : rleGo (65 :: List.replicate 599 0) 600 0 =
      1 :: 65 :: rleGo (65 :: List.replicate 599 0) 600 1 := by
    rw [rleGo, dif_pos (by omega : (0 : Nat) < 600), hd0, hcr0]
    rw [dif_neg (by omega : ¬ (2 : Nat) < 1 + 0)]
    rw [hraw]
    rw [show ([65] : List Nat).length = 1 from rfl]
    rw [show (0 + 1 : Nat) = 1 from rfl, List.singleton_append]
  have h1 := rleGo_const_step (65 :: List.replicate 599 0) 600 1 0 hd (by omega)
  rw [show min 127 (600 - 1) = 127 from by omega, show (128 ||| 127 : Nat) = 255 from by decide,
    show (1 + 127 : Nat) = 128 from by norm_num] at h1
  have h2 := rleGo_const_step (65 :: List.replicate 599 0) 600 128 0
    (fun j ha hb => hd j (by omega) hb) (by omega)
  rw [show min 127 (600 - 128) = 127 from by omega, show (128 ||| 127 : Nat) = 255 from by decide,
    show (128 + 127 : Nat) = 255 from by norm_num] at h2
  have h3 := rleGo_const_step (65 :: List.replicate 599 0) 600 255 0
    (fun j ha hb => hd j (by omega) hb) (by omega)
  rw [show min 127 (600 - 255) = 127 from by omega, show (128 ||| 127 : Nat) = 255 from by decide,
    show (255 + 127 : Nat) = 382 from by norm_num] at h3
  have h4 := rleGo_const_step (65 :: List.replicate 599 0) 600 382 0
    (fun j ha hb => hd j (by omega) hb) (by omega)
  rw [show min 127 (600 - 382) = 127 from by omega, show (128 ||| 127 : Nat) = 255 from by decide,
    show (382 + 127 : Nat) = 509 from by norm_num] at h4
  have h5 := rleGo_const_step (65 :: List.replicate 599 0) 600 509 0
    (fun j ha hb => hd j (by omega) hb) (by omega)
  rw [show min 127 (600 - 509) = 91 from by omega, show (128 ||| 91 : Nat) = 219 from by decide,
    show (509 + 91 : Nat) = 600 from by norm_num] at h5
  rw [hstep0, h1, h2, h3, h4, h5, rleGo_past_end _ _ _ (le_refl 600)]

theorem encode_replicate600 :
    encode (List.replicate 600 65) =
      [0, 0, 0, 0, 1, 65, 255, 0, 255, 0, 255, 0, 255, 0, 219, 0] := by
  have h1 : (perform_burrows_wheeler_transform (List.replicate 600 65)).1 =
      List.replicate 600 65 := by rw [bwt_replicate600]
  have h2 : (perform_burrows_wheeler_transform (List.replicate 600 65)).2 = 0 := by
    rw [bwt_replicate600]
  have hr : perform_run_length_encoding
      (perform_move_to_front_transform (List.replicate 600 65)) =
      [1, 65, 255, 0, 255, 0, 255, 0, 255, 0, 219, 0] := by
    rw [mtf_replicate600, rle_const600]
  have hmain := encode_compressed (List.replicate 600 65) (List.replicate 600 65)
    [1, 65, 255, 0, 255, 0, 255, 0, 255, 0, 219, 0] 0 h1 h2 hr
    (by rw [List.length_replicate]; omega)
    (by rw [List.length_replicate]; decide)
  exact hmain.trans rfl

/-- C8 (amended): on 600 bytes of `0x41` the pipeline takes compressed mode;
the block-sort output is still 600 copies of `0x41` with primary index 0; the
recency-rank stream is `65` followed by 599 zeros (not 600 zeros); the run
codec emits a raw record `(1, 0x41)` followed by four full repeat records
`0x80|127` of value 0 and a remainder repeat record `0x80|91` of value 0; and
because the primary index is 0 the container header collides with the
store-mode flag, so decode returns the 12-byte payload, not the original
buffer. -/
theorem const600_vector_behaviour :
    (perform_burrows_wheeler_transform (List.replicate 600 65)).1 =
      List.replicate 600 65 ∧
    (perform_burrows_wheeler_transform (List.replicate 600 65)).2 = 0 ∧
    perform_move_to_front_transform
        (perform_burrows_wheeler_transform (List.replicate 600 65)).1 =
      65 :: List.replicate 599 0 ∧
    perform_run_length_encoding (perform_move_to_front_transform
        (perform_burrows_wheeler_transform (List.replicate 600 65)).1) =
      [1, 65, 255, 0, 255, 0, 255, 0, 255, 0, 219, 0] ∧
    encode (List.replicate 600 65) =
      [0, 0, 0, 0, 1, 65, 255, 0, 255, 0, 255, 0, 255, 0, 219, 0] ∧
    decode (encode (List.replicate 600 65)) =
      .ok [1, 65, 255, 0, 255, 0, 255, 0, 255, 0, 219, 0] := by
  refine ⟨by rw [bwt_replicate600], by rw [bwt_replicate600], ?_, ?_, encode_replicate600, ?_⟩
  · rw [bwt_replicate600]
    exact mtf_replicate600
  · rw [bwt_replicate600]
    simp only
    rw [mtf_replicate600]
    exact rle_const600
  · have henc : encode (List.replicate 600 65) =
        [0, 0, 0, 0] ++ [1, 65, 255, 0, 255, 0, 255, 0, 255, 0, 219, 0] :=
      encode_replicate600
    rw [henc, decode_store]

/-- The C8 vector does not behave as the specification claims: the rank
stream after the block sort is not 600 zeros, and decode does not reproduce
the original buffer. -/
theorem const600_vector_not_as_specified :
    perform_move_to_front_transform
        (perform_burrows_wheeler_transform (List.replicate 600 65)).1 ≠
      List.replicate 600 0 ∧
    decode (encode (List.replicate 600 65)) ≠ .ok (List.replicate 600 65) := by
  constructor
  · rw [bwt_replicate600]
    simp only
    rw [mtf_replicate600]
    intro h
    have h0 := congrArg (fun l => l.getD 0 0) h
    rw [show (600 : Nat) = 599 + 1 from rfl, List.replicate_succ] at h0
    exact absurd h0 (by decide)
  · have henc : encode (List.replicate 600 65) =
        [0, 0, 0, 0] ++ [1, 65, 255, 0, 255, 0, 255, 0, 255, 0, 219, 0] :=
      encode_replicate600
    rw [henc, decode_store]
    intro h
    have hlists := Except.ok.inj h
    have hlen := congrArg List.length hlists
    rw [List.length_replicate] at hlen
    exact absurd hlen (by decide)

/-! ## C5: failure condition of the block-sort inverse -/

/-- The source returns `b''` for empty transformed data before looking at the
index, so an empty buffer never fails, for any index. -/
theorem bwt_inverse_empty_ok :
    reverse_burrows_wheeler_transform [] 1 = .ok [] := by
  rfl

/-- C5 (amended): `reverse_burrows_wheeler_transform` fails, with
`InvalidIndex`, exactly when the buffer is non-empty and the supplied index
lies outside `[0, n)`; an empty buffer succeeds regardless of the index. -/
theorem bwt_inverse_error_iff (t : List Nat) (original_index : Int) :
    (∃ e, reverse_burrows_wheeler_transform t original_index = .error e) ↔
      (t ≠ [] ∧ (original_index < 0 ∨ (t.length : Int) ≤ original_index)) := by
  unfold reverse_burrows_wheeler_transform
  by_cases h : t = []
  · simp [h]
  · by_cases h2 : original_index < 0 ∨ (t.length : Int) ≤ original_index
    · simp [h, h2]
    · simp [h, h2]

/-! ## C7: the container never grows the input by more than 4 bytes -/

/-- C7: for every byte buffer, `encode` emits at most `len + 4` bytes: short
inputs and incompressible inputs are stored behind a 4-byte header, and the
compressed branch is only taken when the payload plus header is strictly
smaller than the input. -/
theorem encode_length_le (data : List Nat) :
    (encode data).length ≤ data.length + 4 := by
  unfold encode
  split
  · simp only [List.length_append, List.length_cons, List.length_nil]
    omega
  · split
    · simp only [List.length_append, List.length_cons, List.length_nil]
      omega
    · rename_i hsmall hlt
      simp only [List.length_append, length_toBytesBE]
      omega

/-! ## Numeric values of rotation fragments -/

theorem getD_lt_of_bytes (d : List Nat) (hb : ∀ x ∈ d, x < 256) (m : Nat) :
    d.getD m 0 < 256 := by
  by_cases h : m < d.length
  · rw [List.getD_eq_getElem d 0 h]
    exact hb _ (List.getElem_mem h)
  · rw [List.getD_eq_default d 0 (by omega)]
    omega

theorem chunkVal_lt (d : List Nat) (n : Nat) (hb : ∀ x ∈ d, x < 256) :
    ∀ rem s, chunkVal d n s rem < 256 ^ rem := by
  intro rem
  induction rem with
  | zero =>
    intro s
    rw [chunkVal]
    simp
  | succ m ih =>
    intro s
    rw [chunkVal]
    have h1 : d.getD (s % n) 0 < 256 := getD_lt_of_bytes d hb _
    have h2 : chunkVal d n (s + 1) m < 256 ^ m := ih (s + 1)
    calc d.getD (s % n) 0 * 256 ^ m + chunkVal d n (s + 1) m
        < d.getD (s % n) 0 * 256 ^ m + 256 ^ m := by omega
      _ = (d.getD (s % n) 0 + 1) * 256 ^ m := by ring
      _ ≤ 256 * 256 ^ m := Nat.mul_le_mul_right _ (by omega)
      _ = 256 ^ (m + 1) := by ring

theorem chunkVal_snoc (d : List Nat) (n : Nat) :
    ∀ rem s, chunkVal d n s (rem + 1) =
      chunkVal d n s rem * 256 + d.getD ((s + rem) % n) 0 := by
  intro rem
  induction rem with
  | zero =>
    intro s
    rw [chunkVal, chunkVal, chunkVal]
    simp
  | succ m ih =>
    intro s
    rw [chunkVal, ih (s + 1)]
    conv_rhs => rw [chunkVal]
    rw [show s + 1 + m = s + (m + 1) from by omega, pow_succ]
    ring

theorem chunkVal_congr (d : List Nat) (n : Nat) :
    ∀ rem s t, (∀ k, k < rem → d.getD ((s + k) % n) 0 = d.getD ((t + k) % n) 0) →
      chunkVal d n s rem = chunkVal d n t rem := by
  intro rem
  induction rem with
  | zero =>
    intro s t _
    rfl
  | succ m ih =>
    intro s t hk
    rw [chunkVal]
    conv_rhs => rw [chunkVal]
    have h0 : d.getD (s % n) 0 = d.getD (t % n) 0 := by
      have := hk 0 (by omega)
      simpa using this
    rw [h0, ih (s + 1) (t + 1) (fun k hks => by
      have := hk (k + 1) (by omega)
      rw [show s + (k + 1) = s + 1 + k from by omega,
        show t + (k + 1) = t + 1 + k from by omega] at this
      exact this)]

theorem chunkVal_inj (d : List Nat) (n : Nat) (hb : ∀ x ∈ d, x < 256) :
    ∀ rem s t, chunkVal d n s rem = chunkVal d n t rem →
      ∀ k, k < rem → d.getD ((s + k) % n) 0 = d.getD ((t + k) % n) 0 := by
  intro rem
  induction rem with
  | zero =>
    intro s t _ k hk
    omega
  | succ m ih =>
    intro s t heq k hk
    rw [chunkVal] at heq
    conv_rhs at heq => rw [chunkVal]
    have hs : chunkVal d n (s + 1) m < 256 ^ m := chunkVal_lt d n hb m (s + 1)
    have ht : chunkVal d n (t + 1) m < 256 ^ m := chunkVal_lt d n hb m (t + 1)
    have hB : 0 < 256 ^ m := Nat.pos_pow_of_pos m (by omega)
    have hheads : d.getD (s % n) 0 = d.getD (t % n) 0 := by
      have h1 : (d.getD (s % n) 0 * 256 ^ m + chunkVal d n (s + 1) m) / 256 ^ m =
          d.getD (s % n) 0 := by
        rw [Nat.add_comm, Nat.add_mul_div_right _ _ hB, Nat.div_eq_of_lt hs]
        omega
      have h2 : (d.getD (t % n) 0 * 256 ^ m + chunkVal d n (t + 1) m) / 256 ^ m =
          d.getD (t % n) 0 := by
        rw [Nat.add_comm, Nat.add_mul_div_right _ _ hB, Nat.div_eq_of_lt ht]
        omega
      rw [← h1, ← h2, heq]
    have htails : chunkVal d n (s + 1) m = chunkVal d n (t + 1) m := by
      rw [hheads] at heq
      omega
    by_cases hk0 : k = 0
    · subst hk0
      simpa using hheads
    · have := ih (s + 1) (t + 1) htails (k - 1) (by omega)
      rw [show s + 1 + (k - 1) = s + k from by omega,
        show t + 1 + (k - 1) = t + k from by omega] at this
      exact this

theorem cmpGo_val (d : List Nat) (n : Nat) (hb : ∀ x ∈ d, x < 256) (a b : Nat) :
    ∀ rem i,
      (cmpGo d n a b i rem ≤ 0 ↔ chunkVal d n (a + i) rem ≤ chunkVal d n (b + i) rem) ∧
      (cmpGo d n a b i rem = 0 ↔ chunkVal d n (a + i) rem = chunkVal d n (b + i) rem) := by
  intro rem
  induction rem with
  | zero =>
    intro i
    constructor
    · rw [cmpGo, chunkVal, chunkVal]
      simp
    · rw [cmpGo, chunkVal, chunkVal]
      simp
  | succ m ih =>
    intro i
    have hsa : chunkVal d n (a + i) (m + 1) =
        d.getD ((a + i) % n) 0 * 256 ^ m + chunkVal d n (a + i + 1) m := by
      rw [chunkVal]
    have hsb : chunkVal d n (b + i) (m + 1) =
        d.getD ((b + i) % n) 0 * 256 ^ m + chunkVal d n (b + i + 1) m := by
      rw [chunkVal]
    have hta : chunkVal d n (a + i + 1) m < 256 ^ m := chunkVal_lt d n hb m _
    have htb : chunkVal d n (b + i + 1) m < 256 ^ m := chunkVal_lt d n hb m _
    have hB : 0 < 256 ^ m := Nat.pos_pow_of_pos m (by omega)
    rw [cmpGo]
    by_cases hdiff :
        (d.getD ((a + i) % n) 0 : Int) - (d.getD ((b + i) % n) 0 : Int) ≠ 0
    · rw [if_pos hdiff]
      have hne : d.getD ((a + i) % n) 0 ≠ d.getD ((b + i) % n) 0 := by
        intro h
        exact hdiff (by rw [h]; ring)
      constructor
      · constructor
        · intro hle
          have hlt : d.getD ((a + i) % n) 0 < d.getD ((b + i) % n) 0 := by
            have : (d.getD ((a + i) % n) 0 : Int) ≤ (d.getD ((b + i) % n) 0 : Int) := by
              omega
            have h2 : d.getD ((a + i) % n) 0 ≤ d.getD ((b + i) % n) 0 :=
              Int.ofNat_le.mp this
            omega
          rw [hsa, hsb]
          have hstep : (d.getD ((a + i) % n) 0 + 1) * 256 ^ m ≤
              d.getD ((b + i) % n) 0 * 256 ^ m :=
            Nat.mul_le_mul_right _ (by omega)
          have hexp : (d.getD ((a + i) % n) 0 + 1) * 256 ^ m =
              d.getD ((a + i) % n) 0 * 256 ^ m + 256 ^ m := by ring
          omega
        · intro hch
          rw [hsa, hsb] at hch
          have hlt : d.getD ((a + i) % n) 0 ≤ d.getD ((b + i) % n) 0 := by
            by_contra hgt
            have hstep : (d.getD ((b + i) % n) 0 + 1) * 256 ^ m ≤
                d.getD ((a + i) % n) 0 * 256 ^ m :=
              Nat.mul_le_mul_right _ (by omega)
            have hexp : (d.getD ((b + i) % n) 0 + 1) * 256 ^ m =
                d.getD ((b + i) % n) 0 * 256 ^ m + 256 ^ m := by ring
            omega
          omega
      · constructor
        · intro h0
          exact absurd h0 hdiff
        · intro hch
          rw [hsa, hsb] at hch
          exfalso
          by_cases hlt : d.getD ((a + i) % n) 0 < d.getD ((b + i) % n) 0
          · have hstep : (d.getD ((a + i) % n) 0 + 1) * 256 ^ m ≤
                d.getD ((b + i) % n) 0 * 256 ^ m :=
              Nat.mul_le_mul_right _ (by omega)
            have hexp : (d.getD ((a + i) % n) 0 + 1) * 256 ^ m =
                d.getD ((a + i) % n) 0 * 256 ^ m + 256 ^ m := by ring
            omega
          · have hgt : d.getD ((b + i) % n) 0 < d.getD ((a + i) % n) 0 := by omega
            have hstep : (d.getD ((b + i) % n) 0 + 1) * 256 ^ m ≤
                d.getD ((a + i) % n) 0 * 256 ^ m :=
              Nat.mul_le_mul_right _ (by omega)
            have hexp : (d.getD ((b + i) % n) 0 + 1) * 256 ^ m =
                d.getD ((b + i) % n) 0 * 256 ^ m + 256 ^ m := by ring
            omega
    · rw [if_neg hdiff]
      have heq : d.getD ((a + i) % n) 0 = d.getD ((b + i) % n) 0 := by
        omega
      have hih := ih (i + 1)
      rw [show a + (i + 1) = a + i + 1 from by omega,
        show b + (i + 1) = b + i + 1 from by omega] at hih
      rw [hsa, hsb, heq]
      constructor
      · rw [hih.1]
        omega
      · rw [hih.2]
        omega

theorem cmp_le_iff (d : List Nat) (hb : ∀ x ∈ d, x < 256) (a b : Nat) :
    compareRotations d a b ≤ 0 ↔ rotVal d a ≤ rotVal d b := by
  unfold compareRotations rotVal
  have := (cmpGo_val d d.length hb a b d.length 0).1
  rwa [Nat.add_zero, Nat.add_zero] at this

theorem cmp_eq_iff (d : List Nat) (hb : ∀ x ∈ d, x < 256) (a b : Nat) :
    compareRotations d a b = 0 ↔ rotVal d a = rotVal d b := by
  unfold compareRotations rotVal
  have := (cmpGo_val d d.length hb a b d.length 0).2
  rwa [Nat.add_zero, Nat.add_zero] at this

/-! ## Block-sort round-trip (C2) and sort determinism (C9) -/

theorem predIdx_lt (n j : Nat) (hn : 0 < n) : predIdx n j < n := Nat.mod_lt _ hn

theorem predIdx_eq_sub (n j : Nat) (h0 : 0 < j) (hj : j < n) : predIdx n j = j - 1 := by
  unfold predIdx
  rw [show j + n - 1 = (j - 1) + n from by omega, Nat.add_mod_right]
  exact Nat.mod_eq_of_lt (by omega)

theorem predIdx_zero (n : Nat) (hn : 0 < n) : predIdx n 0 = n - 1 := by
  unfold predIdx
  rw [Nat.zero_add]
  exact Nat.mod_eq_of_lt (by omega)

theorem predIdx_succ_mod (n b : Nat) (hb : b < n) : predIdx n ((b + 1) % n) = b := by
  by_cases h : b + 1 < n
  · unfold predIdx
    rw [Nat.mod_eq_of_lt h, show b + 1 + n - 1 = b + n from by omega, Nat.add_mod_right]
    exact Nat.mod_eq_of_lt hb
  · have hbn : b + 1 = n := by omega
    rw [hbn, Nat.mod_self, predIdx_zero n (by omega)]
    omega

theorem succ_predIdx (n j : Nat) (hn : 0 < n) (hj : j < n) : (predIdx n j + 1) % n = j := by
  by_cases h0 : 0 < j
  · rw [predIdx_eq_sub n j h0 hj, show j - 1 + 1 = j from by omega]
    exact Nat.mod_eq_of_lt hj
  · have hj0 : j = 0 := by omega
    subst hj0
    rw [predIdx_zero n hn, show n - 1 + 1 = n from by omega, Nat.mod_self]

theorem predIdx_inj (n : Nat) (hn : 0 < n) {j1 j2 : Nat} (h1 : j1 < n) (h2 : j2 < n)
    (h : predIdx n j1 = predIdx n j2) : j1 = j2 := by
  have hs := succ_predIdx n j1 hn h1
  rw [h, succ_predIdx n j2 hn h2] at hs
  omega

theorem add_sub_one_mod (n a : Nat) (hn : 0 < n) : (a + (n - 1)) % n = predIdx n a := by
  unfold predIdx
  congr 1
  omega

theorem predIdx_shift_mod (n a k : Nat) (hn : 0 < n) :
    (predIdx n a + 1 + k) % n = (a + k) % n := by
  unfold predIdx
  rw [Nat.add_assoc, Nat.mod_add_mod, show a + n - 1 + (1 + k) = a + k + n from by omega,
    Nat.add_mod_right]

theorem rotVal_head_split (d : List Nat) (hn : 0 < d.length) (a : Nat) :
    rotVal d a = d.getD (a % d.length) 0 * 256 ^ (d.length - 1) +
      chunkVal d d.length (a + 1) (d.length - 1) := by
  unfold rotVal
  cases hL : d.length with
  | zero => omega
  | succ m =>
    rw [chunkVal]
    simp

theorem rotVal_snoc (d : List Nat) (hn : 0 < d.length) (a : Nat) :
    rotVal d a = chunkVal d d.length a (d.length - 1) * 256 +
      d.getD (predIdx d.length a) 0 := by
  unfold rotVal
  cases hL : d.length with
  | zero => omega
  | succ m =>
    rw [show m + 1 - 1 = m from rfl]
    rw [chunkVal_snoc d (m + 1) m a]
    rw [show (a + m) % (m + 1) = predIdx (m + 1) a from by
      have := add_sub_one_mod (m + 1) a (by omega)
      simpa using this]

theorem chunkVal_pred_shift (d : List Nat) (hn : 0 < d.length) (a : Nat) :
    chunkVal d d.length (predIdx d.length a + 1) (d.length - 1) =
      chunkVal d d.length a (d.length - 1) :=
  chunkVal_congr d d.length (d.length - 1) _ a
    (fun k _ => by rw [predIdx_shift_mod d.length a k hn])

theorem rotVal_pred (d : List Nat) (hn : 0 < d.length) (a : Nat) :
    rotVal d (predIdx d.length a) =
      d.getD (predIdx d.length a) 0 * 256 ^ (d.length - 1) +
        chunkVal d d.length a (d.length - 1) := by
  rw [rotVal_head_split d hn (predIdx d.length a),
    Nat.mod_eq_of_lt (predIdx_lt _ _ hn), chunkVal_pred_shift d hn a]

theorem head_pred_eq_of_rotVal_eq (d : List Nat) (hb : ∀ x ∈ d, x < 256)
    (hn : 0 < d.length) (a b : Nat) (h : rotVal d a = rotVal d b) :
    d.getD (predIdx d.length a) 0 = d.getD (predIdx d.length b) 0 := by
  have h1 := rotVal_snoc d hn a
  have h2 := rotVal_snoc d hn b
  have e1 : d.getD (predIdx d.length a) 0 < 256 := getD_lt_of_bytes d hb _
  have e2 : d.getD (predIdx d.length b) 0 < 256 := getD_lt_of_bytes d hb _
  omega

theorem rotVal_pred_congr (d : List Nat) (hb : ∀ x ∈ d, x < 256)
    (hn : 0 < d.length) (a b : Nat) (h : rotVal d a = rotVal d b) :
    rotVal d (predIdx d.length a) = rotVal d (predIdx d.length b) := by
  have hhead := head_pred_eq_of_rotVal_eq d hb hn a b h
  have h1 := rotVal_snoc d hn a
  have h2 := rotVal_snoc d hn b
  have e1 : d.getD (predIdx d.length a) 0 < 256 := getD_lt_of_bytes d hb _
  have e2 : d.getD (predIdx d.length b) 0 < 256 := getD_lt_of_bytes d hb _
  have hchunk : chunkVal d d.length a (d.length - 1) =
      chunkVal d d.length b (d.length - 1) := by omega
  rw [rotVal_pred d hn a, rotVal_pred d hn b, hhead, hchunk]

theorem rotVal_pred_le (d : List Nat) (hb : ∀ x ∈ d, x < 256)
    (hn : 0 < d.length) (a1 a2 : Nat)
    (hhead : d.getD (predIdx d.length a1) 0 = d.getD (predIdx d.length a2) 0)
    (hle : rotVal d a1 ≤ rotVal d a2) :
    rotVal d (predIdx d.length a1) ≤ rotVal d (predIdx d.length a2) := by
  have h1 := rotVal_snoc d hn a1
  have h2 := rotVal_snoc d hn a2
  have hchunk : chunkVal d d.length a1 (d.length - 1) ≤
      chunkVal d d.length a2 (d.length - 1) := by omega
  rw [rotVal_pred d hn a1, rotVal_pred d hn a2, hhead]
  have := Nat.mul_le_mul_right (256 ^ (d.length - 1)) (le_refl (d.getD (predIdx d.length a2) 0))
  omega

theorem head_le_of_rotVal_le (d : List Nat) (hb : ∀ x ∈ d, x < 256)
    (hn : 0 < d.length) (a b : Nat) (ha : a < d.length) (hbn : b < d.length)
    (h : rotVal d a ≤ rotVal d b) : d.getD a 0 ≤ d.getD b 0 := by
  rw [rotVal_head_split d hn a, rotVal_head_split d hn b,
    Nat.mod_eq_of_lt ha, Nat.mod_eq_of_lt hbn] at h
  have t1 : chunkVal d d.length (a + 1) (d.length - 1) < 256 ^ (d.length - 1) :=
    chunkVal_lt d d.length hb _ _
  have t2 : chunkVal d d.length (b + 1) (d.length - 1) < 256 ^ (d.length - 1) :=
    chunkVal_lt d d.length hb _ _
  by_contra hgt
  have hstep : (d.getD b 0 + 1) * 256 ^ (d.length - 1) ≤
      d.getD a 0 * 256 ^ (d.length - 1) :=
    Nat.mul_le_mul_right _ (by omega)
  have hexp : (d.getD b 0 + 1) * 256 ^ (d.length - 1) =
      d.getD b 0 * 256 ^ (d.length - 1) + 256 ^ (d.length - 1) := by ring
  omega

theorem pred_char_of_rotVal_eq (d : List Nat) (hb : ∀ x ∈ d, x < 256)
    (hn : 0 < d.length) (a j : Nat) (h : rotVal d a = rotVal d j) :
    d.getD (predIdx d.length a) 0 = d.getD (predIdx d.length j) 0 :=
  head_pred_eq_of_rotVal_eq d hb hn a j h

theorem sortedIndices_perm (d : List Nat) :
    List.Perm (sortedIndices d) (List.range d.length) :=
  List.perm_insertionSort _ _

theorem sortedIndices_length (d : List Nat) : (sortedIndices d).length = d.length := by
  rw [(sortedIndices_perm d).length_eq, List.length_range]

theorem sortedIndices_nodup (d : List Nat) : (sortedIndices d).Nodup :=
  (sortedIndices_perm d).nodup_iff.mpr (List.nodup_range _)

theorem sortedIndices_mem (d : List Nat) (x : Nat) :
    x ∈ sortedIndices d ↔ x < d.length := by
  rw [(sortedIndices_perm d).mem_iff, List.mem_range]

theorem sortedIndices_getD_lt (d : List Nat) (q : Nat) (hq : q < d.length) :
    (sortedIndices d).getD q 0 < d.length := by
  rw [List.getD_eq_getElem _ 0 (by rw [sortedIndices_length]; exact hq)]
  rw [← sortedIndices_mem]
  exact List.getElem_mem _

theorem sortedIndices_sorted (d : List Nat) (hb : ∀ x ∈ d, x < 256) :
    List.Sorted (fun a b => compareRotations d a b ≤ 0) (sortedIndices d) := by
  haveI htot : IsTotal Nat (fun a b => compareRotations d a b ≤ 0) := ⟨by
    intro a b
    rw [cmp_le_iff d hb, cmp_le_iff d hb]
    exact Nat.le_total _ _⟩
  haveI htr : IsTrans Nat (fun a b => compareRotations d a b ≤ 0) := ⟨by
    intro a b c hab hbc
    rw [cmp_le_iff d hb] at hab hbc ⊢
    exact le_trans hab hbc⟩
  exact List.sorted_insertionSort _ _

theorem sortedIndices_rotVal_le (d : List Nat) (hb : ∀ x ∈ d, x < 256)
    (q1 q2 : Nat) (h12 : q1 < q2) (h2 : q2 < d.length) :
    rotVal d ((sortedIndices d).getD q1 0) ≤ rotVal d ((sortedIndices d).getD q2 0) := by
  have hs := sortedIndices_sorted d hb
  have hq1 : q1 < (sortedIndices d).length := by rw [sortedIndices_length]; omega
  have hq2 : q2 < (sortedIndices d).length := by rw [sortedIndices_length]; exact h2
  have hrel := List.pairwise_iff_get.mp hs ⟨q1, hq1⟩ ⟨q2, hq2⟩ h12
  simp only [List.get_eq_getElem] at hrel
  rw [cmp_le_iff d hb] at hrel
  rwa [List.getD_eq_getElem _ 0 hq1, List.getD_eq_getElem _ 0 hq2]

theorem bwt_eq_pair (d : List Nat) (hne : d ≠ []) :
    perform_burrows_wheeler_transform d = (bwtL d, (sortedIndices d).indexOf 0) := by
  unfold perform_burrows_wheeler_transform bwtL
  rw [if_neg hne]

theorem bwtL_length (d : List Nat) : (bwtL d).length = d.length := by
  unfold bwtL
  rw [List.length_map, sortedIndices_length]

theorem bwt_f_eq_pred (d : List Nat) (hn : 0 < d.length) (idx : Nat) (hidx : idx < d.length) :
    (if 0 < idx then d.getD (idx - 1) 0 else d.getD (d.length - 1) 0) =
      d.getD (predIdx d.length idx) 0 := by
  by_cases h0 : 0 < idx
  · rw [if_pos h0, predIdx_eq_sub _ _ h0 hidx]
  · rw [if_neg h0, show idx = 0 from by omega, predIdx_zero _ hn]

theorem bwtL_getD (d : List Nat) (hn : 0 < d.length) (q : Nat) (hq : q < d.length) :
    (bwtL d).getD q 0 = d.getD (predIdx d.length ((sortedIndices d).getD q 0)) 0 := by
  unfold bwtL
  have hq2 : q < (sortedIndices d).length := by rw [sortedIndices_length]; exact hq
  rw [List.getD_eq_getElem _ 0 (by rw [List.length_map]; exact hq2), List.getElem_map]
  rw [List.getD_eq_getElem _ 0 hq2]
  exact bwt_f_eq_pred d hn _ (by
    rw [← sortedIndices_mem]
    exact List.getElem_mem _)

theorem map_getD_range (d : List Nat) :
    (List.range d.length).map (fun i => d.getD i 0) = d := by
  apply List.ext_getElem
  · simp
  · intro i h1 h2
    rw [List.getElem_map, List.getElem_range, List.getD_eq_getElem d 0 h2]

theorem perm_map_predIdx_range (n : Nat) (hn : 0 < n) :
    List.Perm ((List.range n).map (predIdx n)) (List.range n) := by
  have h1 : ((List.range n).map (predIdx n)).Nodup :=
    List.Nodup.map_on
      (fun x hx y hy hxy =>
        predIdx_inj n hn (List.mem_range.mp hx) (List.mem_range.mp hy) hxy)
      (List.nodup_range n)
  apply (List.perm_ext_iff_of_nodup h1 (List.nodup_range n)).mpr
  intro x
  constructor
  · intro hx
    obtain ⟨j, hj, hjx⟩ := List.mem_map.mp hx
    rw [← hjx]
    exact List.mem_range.mpr (predIdx_lt n j hn)
  · intro hx
    have hxn := List.mem_range.mp hx
    exact List.mem_map.mpr ⟨(x + 1) % n, List.mem_range.mpr (Nat.mod_lt _ hn),
      predIdx_succ_mod n x hxn⟩

theorem headsL_perm (d : List Nat) : List.Perm (headsL d) d := by
  unfold headsL
  have h1 : List.Perm ((sortedIndices d).map (fun a => d.getD a 0))
      ((List.range d.length).map (fun a => d.getD a 0)) :=
    (sortedIndices_perm d).map _
  rw [map_getD_range] at h1
  exact h1

theorem bwtL_perm (d : List Nat) (hn : 0 < d.length) : List.Perm (bwtL d) d := by
  unfold bwtL
  have h1 : (sortedIndices d).map
      (fun idx => if 0 < idx then d.getD (idx - 1) 0 else d.getD (d.length - 1) 0) =
      (sortedIndices d).map (fun idx => d.getD (predIdx d.length idx) 0) :=
    List.map_congr_left
      (fun idx hidx => bwt_f_eq_pred d hn idx ((sortedIndices_mem d idx).mp hidx))
  rw [h1]
  have h2 : List.Perm ((sortedIndices d).map (fun idx => d.getD (predIdx d.length idx) 0))
      ((List.range d.length).map (fun idx => d.getD (predIdx d.length idx) 0)) :=
    (sortedIndices_perm d).map _
  have h3 : (List.range d.length).map (fun idx => d.getD (predIdx d.length idx) 0) =
      ((List.range d.length).map (predIdx d.length)).map (fun x => d.getD x 0) := by
    rw [List.map_map]
    rfl
  have h4 : List.Perm (((List.range d.length).map (predIdx d.length)).map (fun x => d.getD x 0))
      ((List.range d.length).map (fun x => d.getD x 0)) :=
    (perm_map_predIdx_range d.length hn).map _
  rw [map_getD_range] at h4
  exact h2.trans (h3 ▸ h4)

theorem headsL_getD (d : List Nat) (q : Nat) (hq : q < d.length) :
    (headsL d).getD q 0 = d.getD ((sortedIndices d).getD q 0) 0 := by
  unfold headsL
  have hq2 : q < (sortedIndices d).length := by rw [sortedIndices_length]; exact hq
  rw [List.getD_eq_getElem _ 0 (by rw [List.length_map]; exact hq2), List.getElem_map,
    List.getD_eq_getElem _ 0 hq2]

theorem headsL_length (d : List Nat) : (headsL d).length = d.length := by
  unfold headsL
  rw [List.length_map, sortedIndices_length]

theorem headsL_sorted (d : List Nat) (hb : ∀ x ∈ d, x < 256) (hn : 0 < d.length) :
    List.Sorted (· ≤ ·) (headsL d) := by
  apply List.pairwise_iff_get.mpr
  intro i j hij
  have hlen := headsL_length d
  have hi : i.1 < d.length := by
    have h2 := i.2
    omega
  have hj : j.1 < d.length := by
    have h2 := j.2
    omega
  have hval := sortedIndices_rotVal_le d hb i.1 j.1 hij hj
  have hle := head_le_of_rotVal_le d hb hn _ _
    (sortedIndices_getD_lt d i.1 hi) (sortedIndices_getD_lt d j.1 hj) hval
  rw [List.get_eq_getElem, List.get_eq_getElem,
    ← List.getD_eq_getElem _ 0 i.2, ← List.getD_eq_getElem _ 0 j.2,
    headsL_getD d i.1 hi, headsL_getD d j.1 hj]
  exact hle

/-! ## Sorted decomposition and value blocks -/

theorem sorted_filter_decomp (v : Nat) :
    ∀ H : List Nat, List.Sorted (· ≤ ·) H →
      H = H.filter (fun b => b < v) ++ H.filter (fun b => b = v) ++
        H.filter (fun b => v < b) := by
  intro H
  induction H with
  | nil =>
    intro _
    rfl
  | cons x T ih =>
    intro hs
    have hxT : ∀ y ∈ T, x ≤ y := List.rel_of_sorted_cons hs
    have hT := ih hs.of_cons
    rcases Nat.lt_trichotomy x v with hx | hx | hx
    · rw [List.filter_cons, List.filter_cons, List.filter_cons,
        if_pos (by simpa using hx), if_neg (by simp; omega), if_neg (by simp; omega)]
      conv_lhs => rw [hT]
      simp
    · have hTlt : T.filter (fun b => b < v) = [] := by
        rw [List.filter_eq_nil_iff]
        intro a ha
        have := hxT a ha
        simp
        omega
      rw [List.filter_cons, List.filter_cons, List.filter_cons,
        if_neg (by simp; omega), if_pos (by simpa using hx), if_neg (by simp; omega)]
      rw [hTlt]
      conv_lhs => rw [hT]
      rw [hTlt]
      simp
    · have hTlt : T.filter (fun b => b < v) = [] := by
        rw [List.filter_eq_nil_iff]
        intro a ha
        have := hxT a ha
        simp
        omega
      have hTeq : T.filter (fun b => b = v) = [] := by
        rw [List.filter_eq_nil_iff]
        intro a ha
        have := hxT a ha
        simp
        omega
      rw [List.filter_cons, List.filter_cons, List.filter_cons,
        if_neg (by simp; omega), if_neg (by simp; omega), if_pos (by simpa using hx)]
      rw [hTlt, hTeq]
      conv_lhs => rw [hT]
      rw [hTlt, hTeq]
      simp

theorem mem_of_getD_lt (l : List Nat) (q : Nat) (hq : q < l.length) :
    l.getD q 0 ∈ l := by
  rw [List.getD_eq_getElem _ 0 hq]
  exact List.getElem_mem _

theorem sorted_getD_eq_iff (H : List Nat) (v : Nat) (hs : List.Sorted (· ≤ ·) H)
    (q : Nat) (hq : q < H.length) :
    H.getD q 0 = v ↔
      ((H.filter (fun b => b < v)).length ≤ q ∧
        q < (H.filter (fun b => b < v)).length + H.count v) := by
  have hdec := sorted_filter_decomp v H hs
  have hBcnt : (H.filter (fun b => b = v)).length = H.count v :=
    (count_eq_filter_length H v).symm
  have hlen : H.length = (H.filter (fun b => b < v)).length +
      (H.filter (fun b => b = v)).length + (H.filter (fun b => v < b)).length := by
    conv_lhs => rw [hdec]
    simp
    omega
  by_cases h1 : q < (H.filter (fun b => b < v)).length
  · have hgd : H.getD q 0 = (H.filter (fun b => b < v)).getD q 0 := by
      conv_lhs => rw [hdec]
      rw [List.append_assoc, List.getD_append _ _ 0 q h1]
    have hmem : (H.filter (fun b => b < v)).getD q 0 ∈ H.filter (fun b => b < v) :=
      mem_of_getD_lt _ q h1
    have hlt : (H.filter (fun b => b < v)).getD q 0 < v := by
      have := List.mem_filter.mp hmem
      simpa using this.2
    constructor
    · intro hv
      rw [hgd] at hv
      omega
    · intro hrange
      omega
  · by_cases h2 : q < (H.filter (fun b => b < v)).length + H.count v
    · have hgd : H.getD q 0 = (H.filter (fun b => b = v)).getD
          (q - (H.filter (fun b => b < v)).length) 0 := by
        conv_lhs => rw [hdec]
        rw [List.append_assoc,
          List.getD_append_right _ _ 0 q (by omega),
          List.getD_append _ _ 0 _ (by omega)]
      have hmem : (H.filter (fun b => b = v)).getD
          (q - (H.filter (fun b => b < v)).length) 0 ∈ H.filter (fun b => b = v) :=
        mem_of_getD_lt _ _ (by omega)
      have heq : (H.filter (fun b => b = v)).getD
          (q - (H.filter (fun b => b < v)).length) 0 = v := by
        have := List.mem_filter.mp hmem
        simpa using this.2
      constructor
      · intro _
        omega
      · intro _
        rw [hgd, heq]
    · have hgd : H.getD q 0 = (H.filter (fun b => v < b)).getD
          (q - (H.filter (fun b => b < v)).length - (H.filter (fun b => b = v)).length) 0 := by
        conv_lhs => rw [hdec]
        rw [List.append_assoc,
          List.getD_append_right _ _ 0 q (by omega),
          List.getD_append_right _ _ 0 _ (by omega)]
      have hmem : (H.filter (fun b => v < b)).getD
          (q - (H.filter (fun b => b < v)).length - (H.filter (fun b => b = v)).length) 0 ∈
          H.filter (fun b => v < b) :=
        mem_of_getD_lt _ _ (by omega)
      have hgt : v < (H.filter (fun b => v < b)).getD
          (q - (H.filter (fun b => b < v)).length - (H.filter (fun b => b = v)).length) 0 := by
        have := List.mem_filter.mp hmem
        simpa using this.2
      constructor
      · intro hv
        rw [hgd] at hv
        omega
      · intro hrange
        omega

/-! ## Occurrence positions -/

theorem occL_cons (x : Nat) (M : List Nat) (v : Nat) :
    occL (x :: M) v = (if x = v then [0] else []) ++ (occL M v).map Nat.succ := by
  unfold occL
  rw [List.length_cons, List.range_succ_eq_map, List.filter_cons, List.filter_map]
  have hcomp : ((fun q => decide ((x :: M).getD q 0 = v)) ∘ Nat.succ) =
      (fun q => decide (M.getD q 0 = v)) := by
    funext q
    simp
  by_cases hx : x = v
  · rw [if_pos (by simpa using hx), if_pos hx, hcomp]
    rfl
  · rw [if_neg (by simpa using hx), if_neg hx, hcomp]
    rfl

theorem occL_length (v : Nat) : ∀ M : List Nat, (occL M v).length = M.count v := by
  intro M
  induction M with
  | nil => rfl
  | cons x M ih =>
    rw [occL_cons, List.count_cons, List.length_append, List.length_map, ih]
    by_cases hx : x = v
    · rw [if_pos hx, if_pos (by simpa using hx)]
      simp
      omega
    · rw [if_neg hx, if_neg (by simpa using hx)]
      simp

theorem getD_map_succ_of_lt (l : List Nat) (n : Nat) (h : n < l.length) :
    (l.map Nat.succ).getD n 0 = (l.getD n 0) + 1 := by
  rw [List.getD_eq_getElem _ 0 (by simpa using h), List.getElem_map,
    List.getD_eq_getElem _ 0 h]

theorem count_take_lt (M : List Nat) (p : Nat) (v : Nat) (hp : p < M.length)
    (hv : M.getD p 0 = v) : (M.take p).count v < M.count v := by
  conv_rhs => rw [← List.take_append_drop p M]
  rw [List.count_append]
  have hdrop : M.drop p = M.getD p 0 :: M.drop (p + 1) := drop_cons_of_lt M p hp
  rw [hdrop, hv, List.count_cons_self]
  omega

theorem occL_getD (v : Nat) :
    ∀ M : List Nat, ∀ p, p < M.length → M.getD p 0 = v →
      (occL M v).getD ((M.take p).count v) 0 = p := by
  intro M
  induction M with
  | nil =>
    intro p hp _
    simp at hp
  | cons x M ih =>
    intro p hp hv
    rw [occL_cons]
    cases p with
    | zero =>
      have hx : x = v := by simpa using hv
      rw [if_pos hx]
      rfl
    | succ p =>
      have hv2 : M.getD p 0 = v := by simpa using hv
      have hp2 : p < M.length := by simpa using hp
      have hih := ih p hp2 hv2
      have hcntlt : (M.take p).count v < M.count v := count_take_lt M p v hp2 hv2
      have hocclen : (occL M v).length = M.count v := occL_length v M
      rw [List.take_succ_cons, List.count_cons]
      simp only [beq_iff_eq]
      by_cases hx : x = v
      · rw [if_pos hx, if_pos hx]
        have happ : ([0] ++ (occL M v).map Nat.succ).getD ((M.take p).count v + 1) 0 =
            ((occL M v).map Nat.succ).getD ((M.take p).count v) 0 := rfl
        rw [happ, getD_map_succ_of_lt _ _ (by omega), hih]
      · rw [if_neg hx, if_neg hx]
        have happ : (([] : List Nat) ++ (occL M v).map Nat.succ).getD ((M.take p).count v + 0) 0 =
            ((occL M v).map Nat.succ).getD ((M.take p).count v) 0 := by
          rw [List.nil_append]
          congr 1
        rw [happ, getD_map_succ_of_lt _ _ (by omega), hih]

theorem occL_mem (M : List Nat) (v q : Nat) :
    q ∈ occL M v ↔ q < M.length ∧ M.getD q 0 = v := by
  unfold occL
  rw [List.mem_filter, List.mem_range]
  simp

theorem occL_pairwise (M : List Nat) (v : Nat) : (occL M v).Pairwise (· < ·) := by
  unfold occL
  exact List.Pairwise.filter _ (List.pairwise_lt_range _)

theorem occL_nodup (M : List Nat) (v : Nat) : (occL M v).Nodup :=
  (occL_pairwise M v).imp (fun h => Nat.ne_of_lt h)

/-! ## The LF mapping -/

theorem transformationVector_getD (t : List Nat) (p : Nat) (hp : p < t.length) :
    (transformationVector t).getD p 0 =
      cumulativeCount t (t.getD p 0) + (t.take p).count (t.getD p 0) := by
  unfold transformationVector
  rw [List.getD_eq_getElem _ 0 (by simpa using hp), List.getElem_map, List.getElem_range]

theorem filter_lt_add_count_le (v : Nat) :
    ∀ d : List Nat, (d.filter (fun b => b < v)).length + d.count v ≤ d.length := by
  intro d
  induction d with
  | nil => simp
  | cons x T ih =>
    rw [List.filter_cons, List.count_cons, List.length_cons]
    simp only [beq_iff_eq]
    by_cases hx : x < v
    · rw [if_pos (by simpa using hx), if_neg (by omega)]
      simp only [List.length_cons]
      omega
    · by_cases he : x = v
      · rw [if_neg (by simp; omega), if_pos he]
        omega
      · rw [if_neg (by simpa using hx), if_neg he]
        omega

theorem cumulativeCount_bwtL (d : List Nat) (hn : 0 < d.length) (v : Nat) :
    cumulativeCount (bwtL d) v = (d.filter (fun b => b < v)).length := by
  unfold cumulativeCount
  exact ((bwtL_perm d hn).filter _).length_eq

theorem count_bwtL (d : List Nat) (hn : 0 < d.length) (v : Nat) :
    (bwtL d).count v = d.count v :=
  (bwtL_perm d hn).count_eq v

/-- The value block of the first column: position `q` of the sorted rotation
list starts with value `v` exactly when `q` lies in the contiguous block of
rotations whose head is `v`. -/
theorem heads_block (d : List Nat) (hb : ∀ x ∈ d, x < 256) (hn : 0 < d.length)
    (v q : Nat) (hq : q < d.length) :
    d.getD ((sortedIndices d).getD q 0) 0 = v ↔
      ((d.filter (fun b => b < v)).length ≤ q ∧
        q < (d.filter (fun b => b < v)).length + d.count v) := by
  have hblk := sorted_getD_eq_iff (headsL d) v (headsL_sorted d hb hn) q
    (by rw [headsL_length]; exact hq)
  rw [headsL_getD d q hq] at hblk
  rw [((headsL_perm d).filter _).length_eq, (headsL_perm d).count_eq] at hblk
  exact hblk

theorem getD_take_drop (l : List Nat) (a b r : Nat) (hr : r < b) (har : a + r < l.length) :
    ((l.drop a).take b).getD r 0 = l.getD (a + r) 0 := by
  have h1 : r < ((l.drop a).take b).length := by
    simp only [List.length_take, List.length_drop]
    omega
  rw [List.getD_eq_getElem _ 0 h1, List.getElem_take, List.getElem_drop,
    List.getD_eq_getElem _ 0 har]

theorem l1_length (d : List Nat) (v : Nat) (hle :
    (d.filter (fun b => b < v)).length + d.count v ≤ d.length) :
    (((sortedIndices d).drop ((d.filter (fun b => b < v)).length)).take (d.count v)).length =
      d.count v := by
  simp only [List.length_take, List.length_drop, sortedIndices_length]
  omega

theorem l1_getD (d : List Nat) (v r : Nat) (hr : r < d.count v) (hle :
    (d.filter (fun b => b < v)).length + d.count v ≤ d.length) :
    (((sortedIndices d).drop ((d.filter (fun b => b < v)).length)).take (d.count v)).getD r 0 =
      (sortedIndices d).getD ((d.filter (fun b => b < v)).length + r) 0 :=
  getD_take_drop _ _ _ r hr (by rw [sortedIndices_length]; omega)

theorem l1_nodup (d : List Nat) (v : Nat) :
    (((sortedIndices d).drop ((d.filter (fun b => b < v)).length)).take (d.count v)).Nodup :=
  (sortedIndices_nodup d).sublist
    ((List.take_sublist _ _).trans (List.drop_sublist _ _))

theorem l1_mem (d : List Nat) (hb : ∀ x ∈ d, x < 256) (hn : 0 < d.length) (v x : Nat)
    (hle : (d.filter (fun b => b < v)).length + d.count v ≤ d.length) :
    (x ∈ ((sortedIndices d).drop ((d.filter (fun b => b < v)).length)).take (d.count v)) ↔
      (x < d.length ∧ d.getD x 0 = v) := by
  constructor
  · intro hx
    obtain ⟨r, hr, hxr⟩ := List.mem_iff_getElem.mp hx
    have hrlen : r < d.count v := by
      have := l1_length d v hle
      omega
    have hx2 : x = (sortedIndices d).getD ((d.filter (fun b => b < v)).length + r) 0 := by
      rw [← hxr, ← l1_getD d v r hrlen hle, List.getD_eq_getElem _ 0 hr]
    have hq : (d.filter (fun b => b < v)).length + r < d.length := by omega
    constructor
    · rw [hx2]
      exact sortedIndices_getD_lt d _ hq
    · rw [hx2]
      exact (heads_block d hb hn v _ hq).mpr ⟨by omega, by omega⟩
  · rintro ⟨hxn, hxv⟩
    have hx : x ∈ sortedIndices d := (sortedIndices_mem d x).mpr hxn
    obtain ⟨q, hq, hqx⟩ := List.mem_iff_getElem.mp hx
    have hqn : q < d.length := by
      have := sortedIndices_length d
      omega
    have hqgd : (sortedIndices d).getD q 0 = x := by
      rw [List.getD_eq_getElem _ 0 hq, hqx]
    have hblk := (heads_block d hb hn v q hqn).mp (by rw [hqgd]; exact hxv)
    apply List.mem_iff_getElem.mpr
    refine ⟨q - (d.filter (fun b => b < v)).length, ?_, ?_⟩
    · rw [l1_length d v hle]
      omega
    · rw [← List.getD_eq_getElem _ 0, l1_getD d v _ (by omega) hle,
        show (d.filter (fun b => b < v)).length +
          (q - (d.filter (fun b => b < v)).length) = q from by omega, hqgd]

theorem nodup_getD_inj (l : List Nat) (hnd : l.Nodup) (q1 q2 : Nat)
    (h1 : q1 < l.length) (h2 : q2 < l.length) (h : l.getD q1 0 = l.getD q2 0) :
    q1 = q2 := by
  rw [List.getD_eq_getElem _ 0 h1, List.getD_eq_getElem _ 0 h2] at h
  have := (List.Nodup.getElem_inj_iff hnd).mp h
  exact this

theorem l2_nodup (d : List Nat) (hn : 0 < d.length) (v : Nat) :
    ((occL (bwtL d) v).map
      (fun q => predIdx d.length ((sortedIndices d).getD q 0))).Nodup := by
  apply List.Nodup.map_on ?_ (occL_nodup _ v)
  intro q1 hq1 q2 hq2 heq
  have hL1 := (occL_mem (bwtL d) v q1).mp hq1
  have hL2 := (occL_mem (bwtL d) v q2).mp hq2
  have hq1n : q1 < d.length := by
    have := bwtL_length d
    omega
  have hq2n : q2 < d.length := by
    have := bwtL_length d
    omega
  have hind1 : (sortedIndices d).getD q1 0 < d.length := sortedIndices_getD_lt d q1 hq1n
  have hind2 : (sortedIndices d).getD q2 0 < d.length := sortedIndices_getD_lt d q2 hq2n
  have hindeq : (sortedIndices d).getD q1 0 = (sortedIndices d).getD q2 0 :=
    predIdx_inj d.length hn hind1 hind2 heq
  exact nodup_getD_inj _ (sortedIndices_nodup d) q1 q2
    (by rw [sortedIndices_length]; exact hq1n)
    (by rw [sortedIndices_length]; exact hq2n) hindeq

theorem l2_mem (d : List Nat) (hb : ∀ x ∈ d, x < 256) (hn : 0 < d.length) (v x : Nat) :
    (x ∈ (occL (bwtL d) v).map
        (fun q => predIdx d.length ((sortedIndices d).getD q 0))) ↔
      (x < d.length ∧ d.getD x 0 = v) := by
  constructor
  · intro hx
    obtain ⟨q, hq, hqx⟩ := List.mem_map.mp hx
    have hocc := (occL_mem (bwtL d) v q).mp hq
    have hqn : q < d.length := by
      have := bwtL_length d
      omega
    have hLv : (bwtL d).getD q 0 = v := hocc.2
    rw [bwtL_getD d hn q hqn] at hLv
    constructor
    · rw [← hqx]
      exact predIdx_lt _ _ hn
    · rw [← hqx]
      exact hLv
  · rintro ⟨hxn, hxv⟩
    have ha : (x + 1) % d.length < d.length := Nat.mod_lt _ hn
    have hpa : predIdx d.length ((x + 1) % d.length) = x := predIdx_succ_mod _ x hxn
    have hamem : (x + 1) % d.length ∈ sortedIndices d := (sortedIndices_mem d _).mpr ha
    obtain ⟨q, hq, hqa⟩ := List.mem_iff_getElem.mp hamem
    have hqn : q < d.length := by
      have := sortedIndices_length d
      omega
    have hqgd : (sortedIndices d).getD q 0 = (x + 1) % d.length := by
      rw [List.getD_eq_getElem _ 0 hq, hqa]
    have hLq : (bwtL d).getD q 0 = v := by
      rw [bwtL_getD d hn q hqn, hqgd, hpa]
      exact hxv
    apply List.mem_map.mpr
    refine ⟨q, (occL_mem (bwtL d) v q).mpr ⟨by rw [bwtL_length]; exact hqn, hLq⟩, ?_⟩
    rw [hqgd, hpa]

theorem l1_perm_l2 (d : List Nat) (hb : ∀ x ∈ d, x < 256) (hn : 0 < d.length) (v : Nat)
    (hle : (d.filter (fun b => b < v)).length + d.count v ≤ d.length) :
    List.Perm
      (((sortedIndices d).drop ((d.filter (fun b => b < v)).length)).take (d.count v))
      ((occL (bwtL d) v).map
        (fun q => predIdx d.length ((sortedIndices d).getD q 0))) := by
  apply (List.perm_ext_iff_of_nodup (l1_nodup d v) (l2_nodup d hn v)).mpr
  intro x
  rw [l1_mem d hb hn v x hle, l2_mem d hb hn v x]

theorem getD_map_of_lt (f : Nat → Nat) (l : List Nat) (n : Nat) (h : n < l.length) :
    (l.map f).getD n 0 = f (l.getD n 0) := by
  rw [List.getD_eq_getElem _ 0 (by simpa using h), List.getElem_map,
    List.getD_eq_getElem _ 0 h]

theorem l1_sorted_map (d : List Nat) (hb : ∀ x ∈ d, x < 256) (v : Nat)
    (hle : (d.filter (fun b => b < v)).length + d.count v ≤ d.length) :
    List.Sorted (· ≤ ·)
      (((((sortedIndices d).drop ((d.filter (fun b => b < v)).length)).take
        (d.count v))).map (rotVal d)) := by
  apply List.pairwise_iff_get.mpr
  intro i j hij
  have hlen : ((((sortedIndices d).drop ((d.filter (fun b => b < v)).length)).take
      (d.count v))).length = d.count v := l1_length d v hle
  have hi : i.1 < d.count v := by
    have h2 := i.2
    simp only [List.length_map] at h2
    omega
  have hj : j.1 < d.count v := by
    have h2 := j.2
    simp only [List.length_map] at h2
    omega
  simp only [List.get_eq_getElem, List.getElem_map]
  rw [← List.getD_eq_getElem _ 0 (by omega : i.1 < ((((sortedIndices d).drop
      ((d.filter (fun b => b < v)).length)).take (d.count v))).length),
    ← List.getD_eq_getElem _ 0 (by omega : j.1 < ((((sortedIndices d).drop
      ((d.filter (fun b => b < v)).length)).take (d.count v))).length)]
  rw [l1_getD d v i.1 hi hle, l1_getD d v j.1 hj hle]
  exact sortedIndices_rotVal_le d hb _ _ (by omega) (by omega)

theorem occL_getD_lt (M : List Nat) (v r : Nat) (hr : r < (occL M v).length) :
    (occL M v).getD r 0 < M.length ∧ M.getD ((occL M v).getD r 0) 0 = v := by
  have hmem : (occL M v).getD r 0 ∈ occL M v := mem_of_getD_lt _ r hr
  exact (occL_mem M v _).mp hmem

theorem occL_getD_mono (M : List Nat) (v r1 r2 : Nat) (h12 : r1 < r2)
    (hr2 : r2 < (occL M v).length) :
    (occL M v).getD r1 0 < (occL M v).getD r2 0 := by
  have hp := occL_pairwise M v
  have h := List.pairwise_iff_get.mp hp ⟨r1, by omega⟩ ⟨r2, hr2⟩ h12
  simp only [List.get_eq_getElem] at h
  rwa [List.getD_eq_getElem _ 0 (by omega), List.getD_eq_getElem _ 0 hr2]

theorem l2_sorted_map (d : List Nat) (hb : ∀ x ∈ d, x < 256) (hn : 0 < d.length) (v : Nat) :
    List.Sorted (· ≤ ·)
      (((occL (bwtL d) v).map
        (fun q => predIdx d.length ((sortedIndices d).getD q 0))).map (rotVal d)) := by
  apply List.pairwise_iff_get.mpr
  intro i j hij
  have hi : i.1 < (occL (bwtL d) v).length := by
    have h2 := i.2
    simp only [List.length_map] at h2
    omega
  have hj : j.1 < (occL (bwtL d) v).length := by
    have h2 := j.2
    simp only [List.length_map] at h2
    omega
  simp only [List.get_eq_getElem, List.getElem_map]
  set q1 := (occL (bwtL d) v)[i.1] with hq1def
  set q2 := (occL (bwtL d) v)[j.1] with hq2def
  have hq1 : q1 = (occL (bwtL d) v).getD i.1 0 := by
    rw [List.getD_eq_getElem _ 0 hi]
  have hq2 : q2 = (occL (bwtL d) v).getD j.1 0 := by
    rw [List.getD_eq_getElem _ 0 hj]
  have h1 := occL_getD_lt (bwtL d) v i.1 hi
  have h2 := occL_getD_lt (bwtL d) v j.1 hj
  have hmono := occL_getD_mono (bwtL d) v i.1 j.1 hij hj
  have hq1n : q1 < d.length := by
    have := bwtL_length d
    omega
  have hq2n : q2 < d.length := by
    have := bwtL_length d
    omega
  have hval : rotVal d ((sortedIndices d).getD q1 0) ≤
      rotVal d ((sortedIndices d).getD q2 0) := by
    apply sortedIndices_rotVal_le d hb q1 q2 (by omega) hq2n
  have hhead1 : d.getD (predIdx d.length ((sortedIndices d).getD q1 0)) 0 = v := by
    have := h1.2
    rw [← hq1] at this
    rw [← this, bwtL_getD d hn q1 hq1n]
  have hhead2 : d.getD (predIdx d.length ((sortedIndices d).getD q2 0)) 0 = v := by
    have := h2.2
    rw [← hq2] at this
    rw [← this, bwtL_getD d hn q2 hq2n]
  exact rotVal_pred_le d hb hn _ _ (by rw [hhead1, hhead2]) hval

theorem l1_eq_l2_map (d : List Nat) (hb : ∀ x ∈ d, x < 256) (hn : 0 < d.length) (v : Nat)
    (hle : (d.filter (fun b => b < v)).length + d.count v ≤ d.length) :
    ((((sortedIndices d).drop ((d.filter (fun b => b < v)).length)).take
        (d.count v))).map (rotVal d) =
      ((occL (bwtL d) v).map
        (fun q => predIdx d.length ((sortedIndices d).getD q 0))).map (rotVal d) :=
  List.eq_of_perm_of_sorted ((l1_perm_l2 d hb hn v hle).map _)
    (l1_sorted_map d hb v hle) (l2_sorted_map d hb hn v)

/-- The LF step: the rotation found at the sorted position computed by the
transformation vector is, as a string, the cyclic predecessor of the current
rotation. -/
theorem lf_mapping (d : List Nat) (hb : ∀ x ∈ d, x < 256) (hn : 0 < d.length)
    (p : Nat) (hp : p < d.length) :
    rotVal d ((sortedIndices d).getD ((transformationVector (bwtL d)).getD p 0) 0) =
      rotVal d (predIdx d.length ((sortedIndices d).getD p 0)) := by
  have hLlen : (bwtL d).length = d.length := bwtL_length d
  have hpL : p < (bwtL d).length := by omega
  have hT := transformationVector_getD (bwtL d) p hpL
  set v := (bwtL d).getD p 0 with hvdef
  have hcum := cumulativeCount_bwtL d hn v
  have hcnt := count_bwtL d hn v
  have hle : (d.filter (fun b => b < v)).length + d.count v ≤ d.length :=
    filter_lt_add_count_le v d
  set r := ((bwtL d).take p).count v with hrdef
  have hrlt : r < d.count v := by
    have := count_take_lt (bwtL d) p v hpL rfl
    omega
  have hocc := occL_getD v (bwtL d) p hpL rfl
  have hoccl : (occL (bwtL d) v).length = d.count v := by
    rw [occL_length v (bwtL d)]
    exact hcnt
  have hl2r : (((occL (bwtL d) v).map
      (fun q => predIdx d.length ((sortedIndices d).getD q 0)))).getD r 0 =
      predIdx d.length ((sortedIndices d).getD p 0) := by
    rw [getD_map_of_lt _ _ r (by omega), hocc]
  have hl1r : ((((sortedIndices d).drop ((d.filter (fun b => b < v)).length)).take
      (d.count v))).getD r 0 =
      (sortedIndices d).getD ((d.filter (fun b => b < v)).length + r) 0 :=
    l1_getD d v r hrlt hle
  have heq := l1_eq_l2_map d hb hn v hle
  have hl1len : ((((sortedIndices d).drop ((d.filter (fun b => b < v)).length)).take
      (d.count v))).length = d.count v := l1_length d v hle
  have hpt : rotVal d (((((sortedIndices d).drop
      ((d.filter (fun b => b < v)).length)).take (d.count v))).getD r 0) =
      rotVal d ((((occL (bwtL d) v).map
        (fun q => predIdx d.length ((sortedIndices d).getD q 0)))).getD r 0) := by
    have e1 := getD_map_of_lt (rotVal d)
      ((((sortedIndices d).drop ((d.filter (fun b => b < v)).length)).take
        (d.count v))) r (by omega)
    have e2 := getD_map_of_lt (rotVal d)
      (((occL (bwtL d) v).map
        (fun q => predIdx d.length ((sortedIndices d).getD q 0)))) r
      (by rw [List.length_map]; omega)
    rw [← e1, ← e2, heq]
  rw [hl1r, hl2r] at hpt
  rw [hT, hcum]
  rw [hvdef] at hpt
  exact hpt

/-- Bound for the transformation vector entries. -/
theorem transformationVector_lt (d : List Nat) (hn : 0 < d.length)
    (p : Nat) (hp : p < d.length) :
    (transformationVector (bwtL d)).getD p 0 < d.length := by
  have hLlen : (bwtL d).length = d.length := bwtL_length d
  have hpL : p < (bwtL d).length := by omega
  have hT := transformationVector_getD (bwtL d) p hpL
  have hcum := cumulativeCount_bwtL d hn ((bwtL d).getD p 0)
  have hcnt := count_bwtL d hn ((bwtL d).getD p 0)
  have hrlt := count_take_lt (bwtL d) p ((bwtL d).getD p 0) hpL rfl
  have hle := filter_lt_add_count_le ((bwtL d).getD p 0) d
  omega

theorem pred_window_arith (n j k i2 : Nat) (hk : k + 1 ≤ n) :
    ((j + n - 1) % n + n - k + i2) % n = (j + n - (k + 1) + i2) % n := by
  have h1 : (j + n - 1) % n + n - k + i2 = (j + n - 1) % n + (n - k + i2) := by omega
  rw [h1, Nat.mod_add_mod]
  have h2 : j + n - 1 + (n - k + i2) = (j + n - (k + 1) + i2) + n := by omega
  rw [h2, Nat.add_mod_right]

/-- The reconstruction loop writes, for each window size `k`, exactly the `k`
bytes of the original buffer that cyclically precede offset `j`, provided the
current sorted position holds a rotation whose string equals rotation `j`. -/
theorem rebuild_window (d : List Nat) (hb : ∀ x ∈ d, x < 256) (hn : 0 < d.length) :
    ∀ k, k ≤ d.length → ∀ cur j, cur < d.length → j < d.length →
      rotVal d ((sortedIndices d).getD cur 0) = rotVal d j →
      rebuild (bwtL d) (transformationVector (bwtL d)) cur k =
        (List.range k).map (fun i2 => d.getD ((j + d.length - k + i2) % d.length) 0) := by
  intro k
  induction k with
  | zero =>
    intro _ cur j _ _ _
    rfl
  | succ k ih =>
    intro hk cur j hcur hj hrot
    rw [rebuild]
    have hvlt : (transformationVector (bwtL d)).getD cur 0 < d.length :=
      transformationVector_lt d hn cur hcur
    have hlf := lf_mapping d hb hn cur hcur
    have hrot2 : rotVal d ((sortedIndices d).getD
        ((transformationVector (bwtL d)).getD cur 0) 0) =
        rotVal d (predIdx d.length j) := by
      rw [hlf]
      exact rotVal_pred_congr d hb hn _ j hrot
    have hih := ih (by omega) ((transformationVector (bwtL d)).getD cur 0)
      (predIdx d.length j) hvlt (predIdx_lt _ _ hn) hrot2
    rw [hih]
    have hchar : (bwtL d).getD cur 0 = d.getD (predIdx d.length j) 0 := by
      rw [bwtL_getD d hn cur hcur]
      exact pred_char_of_rotVal_eq d hb hn _ j hrot
    rw [hchar]
    rw [List.range_succ, List.map_append]
    congr 1
    · apply List.map_congr_left
      intro i2 hi2
      congr 1
      have harith := pred_window_arith d.length j k i2 hk
      rw [show predIdx d.length j + d.length - k + i2 =
        (j + d.length - 1) % d.length + d.length - k + i2 from rfl]
      exact harith
    · simp only [List.map_cons, List.map_nil]
      congr 2
      unfold predIdx
      congr 1
      omega

/-- C2: the block-sort inverse, applied to the transformed buffer and primary
index produced by the forward transform, returns exactly the original byte
buffer (including the empty and single-byte cases). -/
theorem bst_roundtrip (X : List Nat) (hb : ∀ x ∈ X, x < 256) :
    reverse_burrows_wheeler_transform (perform_burrows_wheeler_transform X).1
      ((perform_burrows_wheeler_transform X).2 : Int) = .ok X := by
  by_cases hX : X = []
  · subst hX
    rfl
  · have hn : 0 < X.length := List.length_pos.mpr hX
    rw [bwt_eq_pair X hX]
    simp only
    have h0mem : 0 ∈ sortedIndices X := (sortedIndices_mem X 0).mpr hn
    have hIlt : (sortedIndices X).indexOf 0 < X.length := by
      rw [← sortedIndices_length X]
      exact List.indexOf_lt_length.mpr h0mem
    have hLlen : (bwtL X).length = X.length := bwtL_length X
    have hLne : bwtL X ≠ [] := by
      intro h
      rw [h] at hLlen
      simp at hLlen
      omega
    unfold reverse_burrows_wheeler_transform
    rw [if_neg hLne]
    rw [if_neg (by
      push_neg
      constructor
      · exact Int.natCast_nonneg _
      · rw [hLlen]
        exact_mod_cast hIlt)]
    congr 1
    rw [Int.toNat_natCast, hLlen]
    have hind : (sortedIndices X).getD ((sortedIndices X).indexOf 0) 0 = 0 := by
      rw [List.getD_eq_getElem _ 0 (by rw [sortedIndices_length]; exact hIlt)]
      exact List.getElem_indexOf _
    have hmain := rebuild_window X hb hn X.length le_rfl ((sortedIndices X).indexOf 0) 0
      hIlt hn (by rw [hind])
    rw [hmain]
    have hcong : ∀ i2 ∈ List.range X.length,
        X.getD ((0 + X.length - X.length + i2) % X.length) 0 = X.getD i2 0 := by
      intro i2 hi2
      congr 1
      rw [show 0 + X.length - X.length + i2 = i2 from by omega]
      exact Nat.mod_eq_of_lt (List.mem_range.mp hi2)
    rw [List.map_congr_left hcong, map_getD_range]

theorem bst_roundtrip_witness :
    (∀ x ∈ [2, 1, 2], x < 256) ∧
      reverse_burrows_wheeler_transform (perform_burrows_wheeler_transform [2, 1, 2]).1
        ((perform_burrows_wheeler_transform [2, 1, 2]).2 : Int) = .ok [2, 1, 2] :=
  ⟨by decide, bst_roundtrip [2, 1, 2] (by decide)⟩

/-! ## Determinism and tie-breaking of the rotation sort -/

theorem cmp_lt_iff (d : List Nat) (hb : ∀ x ∈ d, x < 256) (a b : Nat) :
    compareRotations d a b < 0 ↔ rotVal d a < rotVal d b := by
  have hle := cmp_le_iff d hb a b
  have heq := cmp_eq_iff d hb a b
  constructor
  · intro h
    have h1 := hle.mp (by omega)
    have h2 : ¬ compareRotations d a b = 0 := by omega
    have h3 : rotVal d a ≠ rotVal d b := fun he => h2 (heq.mpr he)
    omega
  · intro h
    have h1 : compareRotations d a b ≤ 0 := hle.mpr (by omega)
    have h2 : compareRotations d a b ≠ 0 := by
      intro he
      have := heq.mp he
      omega
    omega

theorem tieLe_iff (d : List Nat) (hb : ∀ x ∈ d, x < 256) (a b : Nat) :
    tieLe d a b ↔
      (rotVal d a < rotVal d b ∨ (rotVal d a = rotVal d b ∧ a ≤ b)) := by
  unfold tieLe
  rw [cmp_lt_iff d hb, cmp_eq_iff d hb]

theorem orderedInsert_tie_sorted (d : List Nat) (hb : ∀ x ∈ d, x < 256) (x : Nat) :
    ∀ s : List Nat, List.Sorted (tieLe d) s → (∀ y ∈ s, x < y) →
      List.Sorted (tieLe d)
        (List.orderedInsert (fun a b => compareRotations d a b ≤ 0) x s) := by
  intro s
  induction s with
  | nil =>
    intro _ _
    simp [List.orderedInsert]
  | cons y s ih =>
    intro hs hxy
    rw [List.orderedInsert]
    by_cases hle : compareRotations d x y ≤ 0
    · rw [if_pos hle]
      apply List.sorted_cons.mpr
      refine ⟨?_, hs⟩
      intro b hb2
      have hxb : x < b := hxy b hb2
      rcases List.mem_cons.mp hb2 with hby | hbs
      · subst hby
        rw [tieLe_iff d hb]
        have hv := (cmp_le_iff d hb x b).mp hle
        rcases Nat.lt_or_ge (rotVal d x) (rotVal d b) with h | h
        · left
          exact h
        · right
          exact ⟨by omega, by omega⟩
      · have hyb : tieLe d y b := List.rel_of_sorted_cons hs b hbs
        rw [tieLe_iff d hb] at hyb ⊢
        have hv := (cmp_le_iff d hb x y).mp hle
        rcases hyb with h | ⟨h1, h2⟩
        · left
          omega
        · rcases Nat.lt_or_ge (rotVal d x) (rotVal d b) with hlt | hge
          · left
            exact hlt
          · right
            exact ⟨by omega, by omega⟩
    · rw [if_neg hle]
      apply List.sorted_cons.mpr
      constructor
      · intro b hb2
        rcases (List.mem_orderedInsert _).mp hb2 with rfl | hbs
        · rw [tieLe_iff d hb]
          left
          have : ¬ rotVal d b ≤ rotVal d y := fun hv => hle ((cmp_le_iff d hb b y).mpr hv)
          omega
        · exact List.rel_of_sorted_cons hs b hbs
      · exact ih hs.of_cons (fun z hz => hxy z (List.mem_cons_of_mem _ hz))

theorem sortedIndices_tie_sorted (d : List Nat) (hb : ∀ x ∈ d, x < 256) :
    List.Sorted (tieLe d) (sortedIndices d) := by
  unfold sortedIndices
  suffices H : ∀ l : List Nat, l.Pairwise (· < ·) →
      List.Sorted (tieLe d)
        (List.insertionSort (fun a b => compareRotations d a b ≤ 0) l) from
    H _ (List.pairwise_lt_range _)
  intro l
  induction l with
  | nil =>
    intro _
    simp [List.insertionSort]
  | cons x tl ih =>
    intro hp
    rw [List.insertionSort]
    apply orderedInsert_tie_sorted d hb x _ (ih hp.of_cons)
    intro y hy
    rw [List.mem_insertionSort] at hy
    exact (List.pairwise_cons.mp hp).1 y hy

theorem tieLe_antisymm (d : List Nat) (hb : ∀ x ∈ d, x < 256) (a b : Nat)
    (h1 : tieLe d a b) (h2 : tieLe d b a) : a = b := by
  rw [tieLe_iff d hb] at h1 h2
  rcases h1 with h1 | ⟨e1, le1⟩ <;> rcases h2 with h2 | ⟨e2, le2⟩ <;> omega

/-- C9: the rotation sort is deterministic — its output is a permutation of
the rotation indices, sorted under the rotation order with equal rotations
tie-broken by ascending original rotation index, and it is the unique such
list, so the transformed buffer and primary index are uniquely determined by
the input. -/
theorem bst_sort_deterministic (d : List Nat) (hb : ∀ x ∈ d, x < 256) :
    List.Perm (sortedIndices d) (List.range d.length) ∧
    List.Sorted (tieLe d) (sortedIndices d) ∧
    ∀ l : List Nat, List.Perm l (List.range d.length) → List.Sorted (tieLe d) l →
      l = sortedIndices d := by
  refine ⟨sortedIndices_perm d, sortedIndices_tie_sorted d hb, ?_⟩
  intro l hperm hsort
  haveI : IsAntisymm Nat (tieLe d) := ⟨fun a b => tieLe_antisymm d hb a b⟩
  exact List.eq_of_perm_of_sorted (hperm.trans (sortedIndices_perm d).symm) hsort
    (sortedIndices_tie_sorted d hb)

theorem bst_sort_deterministic_witness :
    List.Perm (sortedIndices [1, 0]) (List.range ([1, 0] : List Nat).length) ∧
    List.Sorted (tieLe [1, 0]) (sortedIndices [1, 0]) ∧
    ∀ l : List Nat, List.Perm l (List.range ([1, 0] : List Nat).length) →
      List.Sorted (tieLe [1, 0]) l → l = sortedIndices [1, 0] :=
  bst_sort_deterministic [1, 0] (by decide)

end EncDec
